import Mathlib


/-!
Verification development for the tag-sync reconciliation engine
(`src/settings.ts`, `src/sync/pathUtils.ts`, `src/sync/TagIndex.ts`,
`src/sync/StateStore.ts`, `src/sync/DropboxClient.ts`, `src/sync/SyncEngine.ts`).

Strings are modelled as `List Char`.  JavaScript's `String.prototype` helpers
(`trim`, `replace`, `split`, `toLowerCase`, ...) are translated to explicit
recursive functions on `List Char`.  `Date.parse` of remote timestamp strings
is abstracted: remote modification times are carried as already-parsed
milliseconds (`Int`), since no claim concerns the textual date format itself.
-/

/-! ## Character classes (JavaScript `\s`, `\d`, `toLowerCase`)

`isWsChar` is the character class of JavaScript's `\s` (and the set trimmed by
`String.prototype.trim`): ASCII whitespace plus the Unicode space separators,
line/paragraph separators and the BOM. -/
def isWsChar (c : Char) : Bool :=
  (9 ≤ c.toNat && c.toNat ≤ 13) || c.toNat = 32 || c.toNat = 160 || c.toNat = 5760 ||
  (8192 ≤ c.toNat && c.toNat ≤ 8202) || c.toNat = 8232 || c.toNat = 8233 ||
  c.toNat = 8239 || c.toNat = 8287 || c.toNat = 12288 || c.toNat = 65279

def isDigitChar (c : Char) : Bool :=
  48 ≤ c.toNat && c.toNat ≤ 57

/-- ASCII lower-casing, the fragment of `String.prototype.toLowerCase`
relevant to this code base (tags and the `.md` suffix). -/
def lowerChar (c : Char) : Char :=
  if 65 ≤ c.toNat && c.toNat ≤ 90 then Char.ofNat (c.toNat + 32) else c

/-! ## `src/sync/pathUtils.ts` -/

/-- `path.replace(/\\/g, "/")` -/
def replaceBackslash (l : List Char) : List Char :=
  l.map fun c => if c = '\\' then '/' else c

/-- `path.replace(/^\/+/, "")` -/
def dropLeadingSlashes (l : List Char) : List Char :=
  l.dropWhile fun c => c = '/'

/-- `path.replace(/\/+$/, "")` -/
def dropTrailingSlashes (l : List Char) : List Char :=
  (l.reverse.dropWhile fun c => c = '/').reverse

/-- `String.prototype.trim` -/
def trimChars (l : List Char) : List Char :=
  ((l.dropWhile isWsChar).reverse.dropWhile isWsChar).reverse

/-- Collapsing runs of slashes, `path.replace(/\/{2,}/g, "/")`.
The boolean argument records whether the previously kept character was `/`. -/
def collapseAux : Bool → List Char → List Char
  | _, [] => []
  | prevSlash, c :: rest =>
    if c = '/' then
      if prevSlash then collapseAux true rest
      else c :: collapseAux true rest
    else c :: collapseAux false rest

def collapseSlashes (l : List Char) : List Char :=
  collapseAux false l

/-- `normalizeLocalPath` (pathUtils.ts line 1). -/
def normalizeLocalPath (path : List Char) : List Char :=
  dropLeadingSlashes (replaceBackslash path)

/-- `normalizeRemoteBasePath` (pathUtils.ts line 5). -/
def normalizeRemoteBasePath (path : List Char) : List Char :=
  let trimmed := replaceBackslash (trimChars path)
  if trimmed = [] ∨ trimmed = ['/'] then ['/']
  else
    let withLeadingSlash := if trimmed.head? = some '/' then trimmed else '/' :: trimmed
    dropTrailingSlashes (collapseSlashes withLeadingSlash)

/-- `toRemotePath` (pathUtils.ts line 15). -/
def toRemotePath (remoteBasePath localPath : List Char) : List Char :=
  let base := normalizeRemoteBasePath remoteBasePath
  let localPart := normalizeLocalPath localPath
  if base = ['/'] then '/' :: localPart
  else collapseSlashes (base ++ '/' :: localPart)

/-- `toLocalPath` (pathUtils.ts line 25); `null` becomes `none`. -/
def toLocalPath (remoteBasePath remotePath : List Char) : Option (List Char) :=
  let base := normalizeRemoteBasePath remoteBasePath
  let normalizedRemote := normalizeRemoteBasePath remotePath
  if base = ['/'] then some (dropLeadingSlashes normalizedRemote)
  else if normalizedRemote = base then none
  else if (base ++ ['/']).isPrefixOf normalizedRemote then
    some (normalizedRemote.drop (base.length + 1))
  else none

/-- `isMarkdownPath` (pathUtils.ts line 44). -/
def isMarkdownPath (path : List Char) : Bool :=
  ".md".toList.isSuffixOf (path.map lowerChar)

/-! ### `isConflictCopyPath` (pathUtils.ts line 48)

The regex `/\s\(conflict [^)]+\)(-\d+)?\.md$/i` tests whether some suffix of
the normalized path consists of a whitespace character, the (case-insensitive)
marker `(conflict `, one or more non-`)` characters, `)`, an optional
`-digits` group, and `.md`, ending exactly at the end of the string. -/

/-- Case-insensitive prefix test against an already lower-case pattern. -/
def startsWithLower (pat l : List Char) : Bool :=
  (l.take pat.length).map lowerChar = pat

/-- Exact match of the remainder after `)`: `(-\d+)?\.md` anchored at the end. -/
def conflictTailPat (l : List Char) : Bool :=
  l.map lowerChar = ".md".toList ||
    (match l with
     | '-' :: r =>
       decide (r.takeWhile isDigitChar ≠ []) &&
         (r.dropWhile isDigitChar).map lowerChar = ".md".toList
     | _ => false)

def conflictAfterWs (l : List Char) : Bool :=
  startsWithLower "(conflict ".toList l &&
    (let rest := l.drop 10
     let inner := rest.takeWhile fun c => ¬ c = ')'
     match rest.dropWhile fun c => ¬ c = ')' with
     | [] => false
     | _ :: tail => decide (inner ≠ []) && conflictTailPat tail)

def conflictSuffix (l : List Char) : Bool :=
  match l with
  | [] => false
  | c :: rest => isWsChar c && conflictAfterWs rest

def isConflictCopyPath (path : List Char) : Bool :=
  (normalizeLocalPath path).tails.any conflictSuffix

/-! ## `src/settings.ts`: tag normalization -/

/-- `path.replace(/^#+/, "")` -/
def dropLeadingHashes (l : List Char) : List Char :=
  l.dropWhile fun c => c = '#'

/-- `normalizeTag` (settings.ts line 6): trim, strip the leading `#` run,
lower-case. -/
def normalizeTag (rawTag : List Char) : List Char :=
  (dropLeadingHashes (trimChars rawTag)).map lowerChar

/-- `normalizeTags` (settings.ts line 10): normalize each tag, drop empties,
deduplicate keeping first occurrences (JS `Set` insertion order). -/
def normalizeTags (rawTags : List (List Char)) : List (List Char) :=
  ((rawTags.map normalizeTag).filter fun t => ¬ t = []).dedup

/-! ## Claim C10: path translation round-trips -/

/-- "No empty segment": the path never contains two consecutive `/`. -/
def noConsecSlash : List Char → Bool
  | [] => true
  | [_] => true
  | a :: b :: rest => !(a = '/' && b = '/') && noConsecSlash (b :: rest)

/-! ## `src/sync/TagIndex.ts` -/

/-- Token alphabet of the regex produced by `globToRegex` (TagIndex.ts
line 5): `**` becomes `.*`, a single `*` becomes `[^/]*`, every other
character is an escaped literal. -/
inductive GlobTok
  | lit (c : Char)
  | star
  | dstar
deriving DecidableEq

def globTokens : List Char → List GlobTok
  | [] => []
  | '*' :: '*' :: rest => GlobTok.dstar :: globTokens rest
  | '*' :: rest => GlobTok.star :: globTokens rest
  | c :: rest => GlobTok.lit c :: globTokens rest

/-- The glob preprocessing in `globToRegex`:
`normalizeLocalPath(glob.trim()).replace(/^\/+/, "")`. -/
def globPreprocess (glob : List Char) : List Char :=
  dropLeadingSlashes (normalizeLocalPath (trimChars glob))

/-- Matcher for the anchored regex `^tokens$` built by `globToRegex`:
`star` consumes any run of non-`/` characters (some prefix of the maximal
one), `dstar` any run of characters.  The runs are enumerated explicitly so
the recursion is structural in the token list. -/
def gmatch : List GlobTok → List Char → Bool
  | [], s => s = []
  | GlobTok.lit c :: ts, s =>
    match s with
    | [] => false
    | x :: xs => c = x && gmatch ts xs
  | GlobTok.star :: ts, s =>
    (List.range ((s.takeWhile fun c => ¬ c = '/').length + 1)).any fun k =>
      gmatch ts (s.drop k)
  | GlobTok.dstar :: ts, s =>
    (List.range (s.length + 1)).any fun k => gmatch ts (s.drop k)

/-- The value of `frontmatter.tags ?? frontmatter.tag` seen by
`extractFrontmatterTags` (TagIndex.ts line 15): absent (no front matter, no
such key, or a non-string non-array value), a delimited string, or a list. -/
inductive FmTagsValue
  | absent
  | strVal (s : List Char)
  | arrVal (items : List (List Char))

/-- `String.prototype.split(/[,\s]+/)` restricted to its nonempty fragments
(JS also yields empty fragments at the ends; the `.filter(Boolean)` applied
right after removes them, so the model keeps only the nonempty runs). -/
def splitCommaWsAux : List Char → List Char → List (List Char)
  | acc, [] => if acc = [] then [] else [acc.reverse]
  | acc, c :: rest =>
    if c = ',' ∨ isWsChar c = true then
      if acc = [] then splitCommaWsAux [] rest
      else acc.reverse :: splitCommaWsAux [] rest
    else splitCommaWsAux (c :: acc) rest

def splitCommaWs (l : List Char) : List (List Char) :=
  splitCommaWsAux [] l

/-- `extractFrontmatterTags` (TagIndex.ts line 15). -/
def extractFrontmatterTags : FmTagsValue → List (List Char)
  | .absent => []
  | .arrVal items => items.map normalizeTag
  | .strVal s => ((splitCommaWs s).map normalizeTag).filter fun t => ¬ t = []

/-- One markdown file of the vault as seen through the metadata cache:
its path, the raw inline tags (`cache.tags[].tag`) and the front-matter
tags value. -/
structure VaultFile where
  path : List Char
  inlineTags : List (List Char)
  fmTags : FmTagsValue

/-- `extractCacheTags` (TagIndex.ts line 39). -/
def extractCacheTags (f : VaultFile) : List (List Char) :=
  (f.inlineTags.map normalizeTag ++ extractFrontmatterTags f.fmTags).filter fun t => ¬ t = []

/-- `TagIndex.fileHasAnyTag` (TagIndex.ts line 85); the early return for an
empty tag list is absorbed by `List.any`. -/
def fileHasAnyTag (f : VaultFile) (normalizedTags : List (List Char)) : Bool :=
  (extractCacheTags f).any fun t => normalizedTags.any fun s => s = t

/-- `TagIndex.buildTaggedFileSet` (TagIndex.ts line 59).  The vault's
markdown file listing is the explicit argument `files`; the returned JS `Set`
is modelled as the list of its insertions. -/
def buildTaggedFileSet (tagsToSync ignoreGlobs : List (List Char))
    (files : List VaultFile) : List (List Char) :=
  let normalizedTags := normalizeTags tagsToSync
  if normalizedTags = [] then []
  else
    let ignoreMatchers :=
      (ignoreGlobs.filter fun g => ¬ g = []).map fun g => globTokens (globPreprocess g)
    files.filterMap fun file =>
      let localPath := normalizeLocalPath file.path
      if ignoreMatchers.any fun m => gmatch m localPath then none
      else if isConflictCopyPath localPath then none
      else if fileHasAnyTag file normalizedTags then some localPath
      else none

/-! ## `SyncEngine` tag stripping (SyncEngine.ts lines 1020-1176)

`stripSyncTagsFromContent` sanitizes the content written into conflict
copies.  The JS regexes are translated into explicit scanners; recursions
that are not structural use a fuel argument initialized to a bound that the
corresponding JS loop never exceeds. -/

/-- `['"]` (quote characters; written via code points). -/
def isQuoteChar (c : Char) : Bool :=
  c = Char.ofNat 39 || c = Char.ofNat 34

/-- `normalizeTagForMatch` (line 1162): trim, strip the leading `#` run,
strip leading and trailing quote runs, lower-case. -/
def normalizeTagForMatch (rawTag : List Char) : List Char :=
  let t1 := dropLeadingHashes (trimChars rawTag)
  let t2 := t1.dropWhile isQuoteChar
  let t3 := (t2.reverse.dropWhile isQuoteChar).reverse
  t3.map lowerChar

/-- `buildSyncTagSet` (line 1151): the JS `Set` is modelled as a
deduplicated list. -/
def buildSyncTagSet (tagsToSync : List (List Char)) : List (List Char) :=
  ((tagsToSync.map normalizeTagForMatch).filter fun t => ¬ t = []).dedup

def tagSetHas (set : List (List Char)) (t : List Char) : Bool :=
  set.any fun s => s = t

/-- Exact `String.prototype.split(",")`. -/
def splitCommaAux : List Char → List Char → List (List Char)
  | acc, [] => [acc.reverse]
  | acc, c :: rest =>
    if c = ',' then acc.reverse :: splitCommaAux [] rest
    else splitCommaAux (c :: acc) rest

def splitComma (l : List Char) : List (List Char) :=
  splitCommaAux [] l

/-- `stripSyncTagsFromFrontmatterValue` (line 1099); `null` becomes `none`. -/
def stripSyncTagsFromFrontmatterValue (rawValue : List Char)
    (syncTagSet : List (List Char)) : Option (List Char) :=
  let trimmed := trimChars rawValue
  if trimmed = [] then none
  else if trimmed.head? = some '[' ∧ trimmed.getLast? = some ']' then
    let listItems := ((splitComma (trimmed.drop 1).dropLast).map trimChars).filter
      fun t => ¬ t = []
    let kept := listItems.filter fun item => ¬ tagSetHas syncTagSet (normalizeTagForMatch item)
    if kept = [] then none
    else some ('[' :: (List.intercalate ", ".toList kept ++ [']']))
  else if trimmed.any fun c => c = ',' then
    let listItems := ((splitComma trimmed).map trimChars).filter fun t => ¬ t = []
    let kept := listItems.filter fun item => ¬ tagSetHas syncTagSet (normalizeTagForMatch item)
    if kept = [] then none
    else some (List.intercalate ", ".toList kept)
  else if tagSetHas syncTagSet (normalizeTagForMatch trimmed) then none
  else some trimmed

/-- `\s*:\s*` followed by the rest of the line (`match[3]` before trimming). -/
def afterKeyColon (l : List Char) : Option (List Char) :=
  match l.dropWhile isWsChar with
  | ':' :: rest => some (rest.dropWhile isWsChar)
  | _ => none

/-- Parse `/^(\s*)(tags?)\s*:\s*(.*)$/i` against one line: the indent, the
key as written, and the untrimmed raw value. -/
def parseTagsKeyLine (line : List Char) : Option (List Char × List Char × List Char) :=
  let indent := line.takeWhile isWsChar
  match line.dropWhile isWsChar with
  | t :: a :: g :: rest' =>
    if lowerChar t = 't' ∧ lowerChar a = 'a' ∧ lowerChar g = 'g' then
      match rest' with
      | s :: rest'' =>
        if lowerChar s = 's' then
          match afterKeyColon rest'' with
          | some v => some (indent, [t, a, g, s], v)
          | none => (afterKeyColon rest').map fun v => (indent, [t, a, g], v)
        else (afterKeyColon rest').map fun v => (indent, [t, a, g], v)
      | [] => (afterKeyColon rest').map fun v => (indent, [t, a, g], v)
    else none
  | _ => none

/-- The block-list item regex `/^\s*-\s*(.+?)\s*$/`: after leading
whitespace and `-`, a nonempty remainder; the captured group is its trimmed
form when that is nonempty, otherwise (all-whitespace remainder) the last
whitespace character alone. -/
def parseListItem (line : List Char) : Option (List Char) :=
  match line.dropWhile isWsChar with
  | '-' :: r =>
    if r = [] then none
    else if ¬ trimChars r = [] then some (trimChars r)
    else
      match r.getLast? with
      | some c => some [c]
      | none => none
  | _ => none

/-- The inner `while` of `stripSyncTagsFromFrontmatter` (line 1061): consume
the lines of a block list under `indent`, returning the kept lines and the
remaining lines. -/
def collectBlockItems (indent : List Char) (syncTagSet : List (List Char)) :
    List (List Char) → List (List Char) × List (List Char)
  | [] => ([], [])
  | current :: rest =>
    if (indent ++ "  ".toList).isPrefixOf current ∨
        (indent ++ ['\t']).isPrefixOf current then
      match parseListItem current with
      | none =>
        let pr := collectBlockItems indent syncTagSet rest
        (current :: pr.1, pr.2)
      | some item =>
        let pr := collectBlockItems indent syncTagSet rest
        if tagSetHas syncTagSet (normalizeTagForMatch item) then pr
        else (current :: pr.1, pr.2)
    else ([], current :: rest)

/-- The line loop of `stripSyncTagsFromFrontmatter` (line 1045).  The fuel
starts at the number of lines; each iteration consumes at least one line, so
the `0` case is unreachable. -/
def stripFmLines (syncTagSet : List (List Char)) :
    Nat → List (List Char) → List (List Char)
  | 0, ls => ls
  | _ + 1, [] => []
  | fuel + 1, line :: rest =>
    match parseTagsKeyLine line with
    | none => line :: stripFmLines syncTagSet fuel rest
    | some (indent, key, rawRest) =>
      let rawValue := trimChars rawRest
      if rawValue = [] then
        let pr := collectBlockItems indent syncTagSet rest
        if pr.1 = [] then stripFmLines syncTagSet fuel pr.2
        else (indent ++ key ++ [':']) :: (pr.1 ++ stripFmLines syncTagSet fuel pr.2)
      else
        match stripSyncTagsFromFrontmatterValue rawValue syncTagSet with
        | none => stripFmLines syncTagSet fuel rest
        | some v => (indent ++ key ++ ": ".toList ++ v) :: stripFmLines syncTagSet fuel rest

/-- `frontmatterBody.split(/\r?\n/)`. -/
def splitLinesAux : List Char → List Char → List (List Char)
  | acc, [] => [acc.reverse]
  | acc, '\r' :: '\n' :: rest => acc.reverse :: splitLinesAux [] rest
  | acc, '\n' :: rest => acc.reverse :: splitLinesAux [] rest
  | acc, c :: rest => splitLinesAux (c :: acc) rest

def splitLines (l : List Char) : List (List Char) :=
  splitLinesAux [] l

/-- `stripSyncTagsFromFrontmatter` (line 1040). -/
def stripSyncTagsFromFrontmatter (frontmatterBody : List Char)
    (syncTagSet : List (List Char)) (newline : List Char) : List Char :=
  let lines := splitLines frontmatterBody
  List.intercalate newline (stripFmLines syncTagSet lines.length lines)

/-- Locate the lazy close of the front-matter regex: the shortest body
followed by a newline and `---`; returns the body, the newline characters of
the close, and everything after the closing `---`. -/
def fmClose : List Char → Option (List Char × List Char × List Char)
  | '\r' :: '\n' :: '-' :: '-' :: '-' :: rest => some ([], "\r\n".toList, rest)
  | '\n' :: '-' :: '-' :: '-' :: rest => some ([], ['\n'], rest)
  | c :: rest => (fmClose rest).map fun pr => (c :: pr.1, pr.2.1, pr.2.2)
  | [] => none

/-- The trailing `(\r?\n)?` of the front-matter regex: the consumed newline
characters and the rest. -/
def chompNl : List Char → List Char × List Char
  | '\r' :: '\n' :: rest => ("\r\n".toList, rest)
  | '\n' :: rest => (['\n'], rest)
  | l => ([], l)

def containsCRLF : List Char → Bool
  | '\r' :: '\n' :: _ => true
  | _ :: rest => containsCRLF rest
  | [] => false

/-- `content.match(/^---\r?\n([\s\S]*?)\r?\n---(\r?\n)?/)` (line 1026):
returns `match[0]`, the captured front-matter body, and the remaining
content after `match[0]`. -/
def matchFrontmatter (content : List Char) : Option (List Char × List Char × List Char) :=
  match content with
  | '-' :: '-' :: '-' :: rest =>
    let nlSplit : Option (List Char × List Char) :=
      match rest with
      | '\r' :: '\n' :: r => some ("\r\n".toList, r)
      | '\n' :: r => some (['\n'], r)
      | _ => none
    match nlSplit with
    | none => none
    | some (nl1, afterNl) =>
      match fmClose afterNl with
      | none => none
      | some (body, closeNl, afterClose) =>
        let ch := chompNl afterClose
        some ("---".toList ++ nl1 ++ body ++ closeNl ++ "---".toList ++ ch.1,
          body, ch.2)
  | _ => none

/-- Inline tag body characters: letters, digits, underscore, slash, hyphen. -/
def isTagBodyChar (c : Char) : Bool :=
  (65 ≤ c.toNat && c.toNat ≤ 90) || (97 ≤ c.toNat && c.toNat ≤ 122) ||
  (48 ≤ c.toNat && c.toNat ≤ 57) || c = '_' || c = '/' || c = '-'

/-- `[\s([{>"'`]` (inline tag prefix class; quotes and backtick via code
points). -/
def isInlinePrefixChar (c : Char) : Bool :=
  isWsChar c || c = '(' || c = '[' || c = '{' || c = '>' ||
  c = Char.ofNat 34 || c = Char.ofNat 39 || c = Char.ofNat 96

/-- Left-to-right global scan of the inline-tag regex of
`stripInlineSyncTags` (line 1137): a prefix group (start of line or one
prefix character) followed by `#` and a nonempty run of tag body characters;
a matched sync tag is replaced by its prefix group.  The boolean
tracks whether the scan position is at the start of a line (the `m`-flag
`^`); the fuel starts at the body length and each step consumes at least one
character. -/
def scanInline (set : List (List Char)) : Nat → Bool → List Char → List Char
  | 0, _, l => l
  | _ + 1, _, [] => []
  | fuel + 1, atLineStart, c :: rest =>
    if atLineStart = true ∧ c = '#' ∧ ¬ rest.takeWhile isTagBodyChar = [] then
      if tagSetHas set (normalizeTagForMatch (rest.takeWhile isTagBodyChar)) then
        scanInline set fuel false (rest.dropWhile isTagBodyChar)
      else c :: (rest.takeWhile isTagBodyChar ++
        scanInline set fuel false (rest.dropWhile isTagBodyChar))
    else
      match rest with
      | '#' :: r2 =>
        if isInlinePrefixChar c = true ∧ ¬ r2.takeWhile isTagBodyChar = [] then
          if tagSetHas set (normalizeTagForMatch (r2.takeWhile isTagBodyChar)) then
            c :: scanInline set fuel false (r2.dropWhile isTagBodyChar)
          else c :: '#' :: (r2.takeWhile isTagBodyChar ++
            scanInline set fuel false (r2.dropWhile isTagBodyChar))
        else c :: scanInline set fuel (c = '\n') ('#' :: r2)
      | _ => c :: scanInline set fuel (c = '\n') rest

/-- The final `replace(/[ \t]+\n/g, "\n")` (line 1148): spaces and tabs
immediately preceding a newline are removed. -/
def stripWsBeforeNl : List Char → List Char
  | [] => []
  | c :: rest =>
    let out := stripWsBeforeNl rest
    if (c = ' ' ∨ c = '\t') ∧ out.head? = some '\n' then out else c :: out

/-- `stripInlineSyncTags` (line 1136). -/
def stripInlineSyncTags (body : List Char) (syncTagSet : List (List Char)) : List Char :=
  stripWsBeforeNl (scanInline syncTagSet body.length true body)

/-- `stripSyncTagsFromContent` (line 1020). -/
def stripSyncTagsFromContent (content : List Char) (tagsToSync : List (List Char)) :
    List Char :=
  let syncTagSet := buildSyncTagSet tagsToSync
  if syncTagSet = [] then content
  else
    match matchFrontmatter content with
    | none => stripInlineSyncTags content syncTagSet
    | some (whole, fmBody, remainingBody) =>
      let newline := if containsCRLF whole then "\r\n".toList else ['\n']
      let strippedFrontmatter := stripSyncTagsFromFrontmatter fmBody syncTagSet newline
      let strippedBody := stripInlineSyncTags remainingBody syncTagSet
      "---".toList ++ newline ++ strippedFrontmatter ++ newline ++ "---".toList ++
        newline ++ strippedBody

/-! ## `src/types.ts` and the engine world

The vault is an association list from raw path strings to file data; the
engine's accessors normalize query paths exactly where the source does
(`getLocalFile`, `createOrModifyLocalFile`).  The state store normalizes its
keys itself (`StateStore.getFile/setFile/deleteFile`).  File sizes are the
`stat.size` numbers; write operations set the new file's size to its content
length and its modification time to a filesystem-oracle value. -/
structure FileSyncState where
  dropboxRev : Option (List Char)
  lastLocalMtime : Option Int
  lastRemoteModified : Option Int
deriving DecidableEq

structure LocalFile where
  content : List Char
  mtime : Int
  size : Int
deriving DecidableEq

abbrev Vault := List (List Char × LocalFile)

abbrev Store := List (List Char × FileSyncState)

def vaultFindRaw (v : Vault) (path : List Char) : Option LocalFile :=
  (v.find? fun e => e.1 = path).map Prod.snd

def vaultHasRaw (v : Vault) (path : List Char) : Bool :=
  v.any fun e => e.1 = path

def vaultSetRaw (v : Vault) (path : List Char) (f : LocalFile) : Vault :=
  if v.any fun e => e.1 = path then v.map fun e => if e.1 = path then (path, f) else e
  else v ++ [(path, f)]

def vaultDeleteRaw (v : Vault) (path : List Char) : Vault :=
  v.filter fun e => ¬ e.1 = path

/-- `getLocalFile` (SyncEngine.ts line 929). -/
def getLocalFile (v : Vault) (path : List Char) : Option LocalFile :=
  vaultFindRaw v (normalizeLocalPath path)

/-- `createOrModifyLocalFile` (line 935): write `content` at the normalized
path and return the written file as re-read (its mtime assigned by the
filesystem). -/
def createOrModifyLocalFile (v : Vault) (path content : List Char)
    (writeMtime : Int) : Vault × LocalFile :=
  let f : LocalFile := ⟨content, writeMtime, content.length⟩
  (vaultSetRaw v (normalizeLocalPath path) f, f)

/-- `StateStore.getFile` (StateStore.ts line 103). -/
def storeGet (st : Store) (path : List Char) : Option FileSyncState :=
  (st.find? fun e => e.1 = normalizeLocalPath path).map Prod.snd

/-- `StateStore.setFile` (StateStore.ts line 107). -/
def storeSet (st : Store) (path : List Char) (v : FileSyncState) : Store :=
  let k := normalizeLocalPath path
  if st.any fun e => e.1 = k then st.map fun e => if e.1 = k then (k, v) else e
  else st ++ [(k, v)]

/-- `StateStore.deleteFile` (StateStore.ts line 111). -/
def storeDelete (st : Store) (path : List Char) : Store :=
  st.filter fun e => ¬ e.1 = normalizeLocalPath path

/-- The engine-relevant settings fields. -/
structure EngineSettings where
  remoteBasePath : List Char
  vaultId : List Char
  tagsToSync : List (List Char)
  maxUploadSizeMB : Int

/-- The components of the `Date` used in `buildConflictPath`
(`getMonth()` is 0-based, as in JS). -/
structure DateParts where
  year : Nat
  monthIndex : Nat
  day : Nat
  hour : Nat
  minute : Nat

def digitChar (k : Nat) : Char :=
  if k = 0 then '0' else if k = 1 then '1' else if k = 2 then '2'
  else if k = 3 then '3' else if k = 4 then '4' else if k = 5 then '5'
  else if k = 6 then '6' else if k = 7 then '7' else if k = 8 then '8' else '9'

/-- Decimal digits of a natural number (`String(n)` for a whole number). -/
def natToCharsAux : Nat → Nat → List Char → List Char
  | 0, _, acc => acc
  | fuel + 1, n, acc =>
    if n < 10 then digitChar n :: acc
    else natToCharsAux fuel (n / 10) (digitChar (n % 10) :: acc)

def natToChars (n : Nat) : List Char :=
  natToCharsAux (n + 1) n []

/-- `String(value).padStart(2, "0")` (the `pad` helper, line 1220). -/
def pad2 (n : Nat) : List Char :=
  let s := natToChars n
  if s.length < 2 then '0' :: s else s

/-- `[a-zA-Z0-9_-]` (characters kept by the vault-id sanitizer). -/
def isSafeVaultIdChar (c : Char) : Bool :=
  (97 ≤ c.toNat && c.toNat ≤ 122) || (65 ≤ c.toNat && c.toNat ≤ 90) ||
  (48 ≤ c.toNat && c.toNat ≤ 57) || c = '_' || c = '-'

/-- Directory part of `buildConflictPath`'s `lastIndexOf("/")` split
(empty when there is no slash). -/
def conflictDirectory (l : List Char) : List Char :=
  if (l.reverse.takeWhile fun c => ¬ c = '/').length = l.length then []
  else l.take (l.length - (l.reverse.takeWhile fun c => ¬ c = '/').length - 1)

def conflictFilename (l : List Char) : List Char :=
  (l.reverse.takeWhile fun c => ¬ c = '/').reverse

/-- `filename.replace(/\.md$/i, "")`. -/
def stripMdSuffix (l : List Char) : List Char :=
  if ".md".toList.isSuffixOf (l.map lowerChar) then l.take (l.length - 3) else l

/-- `conflictPath.replace(/\.md$/i, "-" + suffix + ".md")`. -/
def replaceMdSuffix (l : List Char) (suffix : Nat) : List Char :=
  if ".md".toList.isSuffixOf (l.map lowerChar) then
    l.take (l.length - 3) ++ '-' :: (natToChars suffix ++ ".md".toList)
  else l

/-- `buildConflictPath` (line 999). -/
def buildConflictPath (localPath vaultId : List Char) (now : DateParts) : List Char :=
  let normalizedPath := normalizeLocalPath localPath
  let directory := conflictDirectory normalizedPath
  let filename := conflictFilename normalizedPath
  let baseName := stripMdSuffix filename
  let safeVaultId := (if vaultId = [] then "vault".toList else vaultId).map
    fun c => if isSafeVaultIdChar c then c else '-'
  let timestamp := natToChars now.year ++ '-' :: (pad2 (now.monthIndex + 1) ++
    '-' :: (pad2 now.day ++ '_' :: (pad2 now.hour ++ '-' :: pad2 now.minute)))
  let conflictName := baseName ++ " (conflict ".toList ++ safeVaultId ++
    ' ' :: (timestamp ++ ").md".toList)
  if directory = [] then conflictName else directory ++ '/' :: conflictName

/-- The free-name search of `createConflictCopy` (line 987).  The fuel is
one more than the vault size; since the candidate names are pairwise
distinct, a free name is always found before the fuel runs out. -/
def conflictFreeLoop (v : Vault) (conflictPath : List Char) :
    Nat → List Char → Nat → List Char
  | 0, finalPath, _ => finalPath
  | fuel + 1, finalPath, suffix =>
    if vaultHasRaw v finalPath then
      conflictFreeLoop v conflictPath fuel (replaceMdSuffix conflictPath suffix) (suffix + 1)
    else finalPath

structure ConflictCopyResult where
  vault : Vault
  path : List Char
  content : List Char

/-- `createConflictCopy` (line 979): find a free conflict name, sanitize the
content, create the file.  (Folder creation and the self-echo ignore mark
have no observable effect in this model.) -/
def createConflictCopy (v : Vault) (localPath content vaultId : List Char)
    (tagsToSync : List (List Char)) (now : DateParts) (writeMtime : Int) :
    ConflictCopyResult :=
  let conflictPath := buildConflictPath localPath vaultId now
  let finalPath := conflictFreeLoop v conflictPath (v.length + 1) conflictPath 1
  let sanitizedContent := stripSyncTagsFromContent content tagsToSync
  ⟨vaultSetRaw v finalPath ⟨sanitizedContent, writeMtime, sanitizedContent.length⟩,
   finalPath, sanitizedContent⟩

/-! ## Remote entries and per-call oracles -/
structure RemoteFileMeta where
  rev : List Char
  serverModified : Int
deriving DecidableEq

structure DownloadResult where
  meta : RemoteFileMeta
  content : List Char
deriving DecidableEq

/-- A present (`.tag = "file"`) delta entry. -/
structure RemoteFileEntry where
  pathDisplay : List Char
  rev : List Char
  serverModified : Int

/-- A deleted (`.tag = "deleted"`) delta entry. -/
structure RemoteDeletedEntry where
  pathDisplay : Option (List Char)
  pathLower : List Char

/-- Environment responses for one `applyRemoteFile`/`applyRemoteDelete`
call: the download result for the entry's remote path, the metadata an
upload would return, the modification time the filesystem assigns to files
written now, and the wall clock used in conflict-copy names. -/
structure PullOracle where
  download : DownloadResult
  upload : RemoteFileMeta
  writeMtime : Int
  now : DateParts

structure UploadCall where
  localPath : List Char
  remotePath : List Char
  content : List Char
deriving DecidableEq

/-- Result of applying one remote entry: the new vault and store plus a
trace of the calls performed. -/
structure ApplyOutcome where
  vault : Vault
  store : Store
  uploads : List UploadCall
  conflictCopies : List (List Char × List Char)
  localDeletes : List (List Char)
  localWrites : List (List Char × List Char)

/-- `applyRemoteDelete` (line 736). -/
def applyRemoteDelete (s : EngineSettings) (entry : RemoteDeletedEntry)
    (o : PullOracle) (v : Vault) (st : Store) : ApplyOutcome :=
  let remotePath := entry.pathDisplay.getD entry.pathLower
  match toLocalPath s.remoteBasePath remotePath with
  | none => ⟨v, st, [], [], [], []⟩
  | some localPath =>
    if ¬ isMarkdownPath localPath = true then ⟨v, st, [], [], [], []⟩
    else if isConflictCopyPath localPath = true then
      ⟨v, storeDelete st localPath, [], [], [], []⟩
    else
      match getLocalFile v localPath with
      | none => ⟨v, storeDelete st localPath, [], [], [], []⟩
      | some localFile =>
        let existingState := storeGet st localPath
        let localChanged : Bool := match existingState with
          | none => true
          | some stt => decide (¬ stt.lastLocalMtime = some localFile.mtime)
        if localChanged = false then
          ⟨vaultDeleteRaw v (normalizeLocalPath localPath), storeDelete st localPath,
           [], [], [normalizeLocalPath localPath], []⟩
        else
          let localContent := localFile.content
          let cc := createConflictCopy v localPath localContent s.vaultId
            s.tagsToSync o.now o.writeMtime
          ⟨cc.vault,
           storeSet st localPath
             ⟨some o.upload.rev, some localFile.mtime, some o.upload.serverModified⟩,
           [⟨localPath, toRemotePath s.remoteBasePath localPath, localContent⟩],
           [(cc.path, cc.content)], [], []⟩

/-- `applyRemoteFile` (line 777). -/
def applyRemoteFile (s : EngineSettings) (entry : RemoteFileEntry)
    (o : PullOracle) (v : Vault) (st : Store) : ApplyOutcome :=
  match toLocalPath s.remoteBasePath entry.pathDisplay with
  | none => ⟨v, st, [], [], [], []⟩
  | some localPath =>
    if ¬ isMarkdownPath localPath = true then ⟨v, st, [], [], [], []⟩
    else if isConflictCopyPath localPath = true then
      ⟨v, storeDelete st localPath, [], [], [], []⟩
    else
      let existingState := storeGet st localPath
      let remoteChanged : Bool := match existingState with
        | none => true
        | some stt => decide (¬ stt.dropboxRev = some entry.rev)
      if remoteChanged = false then ⟨v, st, [], [], [], []⟩
      else
        match getLocalFile v localPath with
        | none =>
          let wr := createOrModifyLocalFile v localPath o.download.content o.writeMtime
          ⟨wr.1,
           storeSet st localPath ⟨some o.download.meta.rev, some wr.2.mtime,
             some o.download.meta.serverModified⟩,
           [], [], [], [(normalizeLocalPath localPath, o.download.content)]⟩
        | some localFile =>
          let localChanged : Bool := match existingState with
            | none => true
            | some stt => decide (¬ stt.lastLocalMtime = some localFile.mtime)
          if localChanged = false then
            let wr := createOrModifyLocalFile v localPath o.download.content o.writeMtime
            ⟨wr.1,
             storeSet st localPath ⟨some o.download.meta.rev, some wr.2.mtime,
               some o.download.meta.serverModified⟩,
             [], [], [], [(normalizeLocalPath localPath, o.download.content)]⟩
          else
            let localContent := localFile.content
            if o.download.content = localContent then
              ⟨v,
               storeSet st localPath ⟨some o.download.meta.rev, some localFile.mtime,
                 some o.download.meta.serverModified⟩,
               [], [], [], []⟩
            else
              let cc := createConflictCopy v localPath localContent s.vaultId
                s.tagsToSync o.now o.writeMtime
              if o.download.meta.serverModified ≥ localFile.mtime then
                let wr := createOrModifyLocalFile cc.vault localPath
                  o.download.content o.writeMtime
                ⟨wr.1,
                 storeSet st localPath ⟨some o.download.meta.rev, some wr.2.mtime,
                   some o.download.meta.serverModified⟩,
                 [], [(cc.path, cc.content)], [],
                 [(normalizeLocalPath localPath, o.download.content)]⟩
              else
                ⟨cc.vault,
                 storeSet st localPath ⟨some o.upload.rev, some localFile.mtime,
                   some o.upload.serverModified⟩,
                 [⟨localPath, toRemotePath s.remoteBasePath localPath, localContent⟩],
                 [(cc.path, cc.content)], [], []⟩

/-! ## `pushLocalChanges` (SyncEngine.ts line 857) -/

/-- Per-file upload results for the push loop. -/
structure PushOracle where
  upload : List Char → RemoteFileMeta

structure PushOutcome where
  store : Store
  uploads : List UploadCall
  remoteDeletes : List (List Char)

/-- The first loop of `pushLocalChanges`: iterate over a snapshot of the
tracked entries, deleting remotely (and dropping from the store) the tracked
paths that are gone locally, are conflict copies, or fell out of scope while
changed. -/
def pushCleanupLoop (v : Vault) (tagged : List (List Char)) :
    List (List Char × FileSyncState) → Store → Store × List (List Char)
  | [], st => (st, [])
  | (trackedPath, trackedState) :: rest, st =>
    match getLocalFile v trackedPath with
    | none =>
      let pr := pushCleanupLoop v tagged rest (storeDelete st trackedPath)
      (pr.1, trackedPath :: pr.2)
    | some localFile =>
      if isConflictCopyPath trackedPath = true then
        let pr := pushCleanupLoop v tagged rest (storeDelete st trackedPath)
        (pr.1, trackedPath :: pr.2)
      else if ¬ (tagged.any fun q => q = trackedPath) = true then
        if ¬ trackedState.lastLocalMtime = some localFile.mtime then
          let pr := pushCleanupLoop v tagged rest (storeDelete st trackedPath)
          (pr.1, trackedPath :: pr.2)
        else pushCleanupLoop v tagged rest st
      else pushCleanupLoop v tagged rest st

/-- The second loop of `pushLocalChanges`: upload every in-scope file that
changed since the recorded local mtime (or all of them under force-resync),
skipping oversized files while still advancing their recorded local mtime. -/
def pushUploadLoop (s : EngineSettings) (o : PushOracle) (v : Vault)
    (forceUploadAllTagged : Bool) : List (List Char) → Store → Store × List UploadCall
  | [], st => (st, [])
  | localPath :: rest, st =>
    match getLocalFile v localPath with
    | none => pushUploadLoop s o v forceUploadAllTagged rest st
    | some localFile =>
      let existingState := storeGet st localPath
      let untouched : Bool := !forceUploadAllTagged &&
        (match existingState with
         | some stt => decide (stt.lastLocalMtime = some localFile.mtime)
         | none => false)
      if untouched = true then pushUploadLoop s o v forceUploadAllTagged rest st
      else if localFile.size > s.maxUploadSizeMB * 1024 * 1024 then
        let newSt := storeSet st localPath
          ⟨existingState.bind FileSyncState.dropboxRev, some localFile.mtime,
           existingState.bind FileSyncState.lastRemoteModified⟩
        pushUploadLoop s o v forceUploadAllTagged rest newSt
      else
        let uploaded := o.upload localPath
        let newSt := storeSet st localPath
          ⟨some uploaded.rev, some localFile.mtime, some uploaded.serverModified⟩
        let pr := pushUploadLoop s o v forceUploadAllTagged rest newSt
        (pr.1, ⟨localPath, toRemotePath s.remoteBasePath localPath, localFile.content⟩ :: pr.2)

def pushLocalChanges (s : EngineSettings) (o : PushOracle) (v : Vault)
    (taggedFiles : List (List Char)) (forceUploadAllTagged : Bool)
    (st : Store) : PushOutcome :=
  let pr1 := pushCleanupLoop v taggedFiles st st
  let pr2 := pushUploadLoop s o v forceUploadAllTagged taggedFiles pr1.1
  ⟨pr2.1, pr2.2, pr1.2⟩

/-! ## `syncOnce` (SyncEngine.ts line 699) and `StateStore.save` -/

/-- `SyncStateData` (types.ts line 20). -/
structure SyncStateData where
  cursor : Option (List Char)
  files : Store
deriving DecidableEq

/-- One pass of `syncOnce` at the level of its control flow.  The two staged
computations (`pullRemoteChanges`, and scope rebuild plus
`pushLocalChanges`) may raise; a stage returns the state as already mutated
when it raised, together with a success flag.  The `finally` block persists
a point-in-time copy (`StateStore.save`, StateStore.ts line 123) of whatever
state is current, also on the failure paths; a pull failure skips the push
stage; paused or unconfigured passes return before the `try` and persist
nothing. -/
structure SyncOnceOutcome where
  state : SyncStateData
  persisted : Option SyncStateData
  raised : Bool
  pushAttempted : Bool
  saved : Bool

def syncOnce (isPaused isConfigured : Bool)
    (pull : SyncStateData → SyncStateData × Bool)
    (pushStage : SyncStateData → SyncStateData × Bool)
    (st : SyncStateData) (persisted0 : Option SyncStateData) : SyncOnceOutcome :=
  if isPaused then ⟨st, persisted0, false, false, false⟩
  else if ¬ isConfigured = true then ⟨st, persisted0, false, false, false⟩
  else
    let pr := pull st
    if pr.2 then
      let ps := pushStage pr.1
      ⟨ps.1, some ps.1, !ps.2, true, true⟩
    else ⟨pr.1, some pr.1, true, false, true⟩

/-! ## The run-coalescing scheduler (`startRun`/`runLoop`, lines 650-697)

JavaScript is single-threaded, so the flag transitions of `startRun` and of
`runLoop`'s do-while are atomic with respect to arriving triggers.  The
scheduler is modelled as a transition system over two kinds of events: a
trigger arriving (a call of `startRun`) and the completion of one
`syncOnce` pass (the end of one do-while iteration).  `startedPasses` and
`finishedPasses` instrument how many passes have begun and ended. -/
inductive SchedEvent
  | trigger
  | passEnd

structure SchedState where
  running : Bool
  rerunRequested : Bool
  startedPasses : Nat
  finishedPasses : Nat
deriving DecidableEq

def schedStep (s : SchedState) : SchedEvent → SchedState
  | .trigger =>
    if s.running then ⟨s.running, true, s.startedPasses, s.finishedPasses⟩
    else ⟨true, s.rerunRequested, s.startedPasses + 1, s.finishedPasses⟩
  | .passEnd =>
    if ¬ s.running = true then s
    else if s.rerunRequested then
      ⟨s.running, false, s.startedPasses + 1, s.finishedPasses + 1⟩
    else ⟨false, s.rerunRequested, s.startedPasses, s.finishedPasses + 1⟩

def schedInit : SchedState := ⟨false, false, 0, 0⟩

def schedRun (evs : List SchedEvent) : SchedState :=
  evs.foldl schedStep schedInit

def schedInv (s : SchedState) : Prop :=
  (s.running = true → s.startedPasses = s.finishedPasses + 1) ∧
  (s.running = false → s.startedPasses = s.finishedPasses) ∧
  (s.rerunRequested = true → s.running = true)

/-! ## `fetchWithRetry` (DropboxClient.ts line 386) -/

/-- The `Retry-After` response header as read through
`Number(response.headers.get("Retry-After"))`: an absent header reads as
`Number(null) = 0`, which IS a finite number; a numeric header as its value;
a present but non-numeric header as `NaN`. -/
inductive RetryAfterHeader
  | absent
  | numeric (seconds : Int)
  | nonNumeric
deriving DecidableEq

/-- `getRetryDelayMs` (line 57).  Because `Number(null) = 0` passes the
`Number.isFinite` test, an absent header yields `max(1000, 0) = 1000`; the
exponential fallback is reached only for a present but non-numeric header. -/
def getRetryDelayMs (h : RetryAfterHeader) (attempt : Nat) : Int :=
  match h with
  | .absent => max 1000 0
  | .numeric v => max 1000 (v * 1000)
  | .nonNumeric => min (1000 * 2 ^ (attempt - 1)) 30000

/-- The inline network-failure backoff (line 413):
`Math.min(1000 * 2 ** (attempt - 1), 30000)`. -/
def netRetryDelayMs (attempt : Nat) : Int :=
  min (1000 * 2 ^ (attempt - 1)) 30000

/-- `isTransientStatus` (line 53). -/
def isTransientStatus (status : Nat) : Bool :=
  status = 429 || status ≥ 500

/-- `Response.ok`. -/
def isOkStatus (status : Nat) : Bool :=
  200 ≤ status && status ≤ 299

/-- `responseText.includes("not_found")`. -/
def bodyHasNotFound (body : List Char) : Bool :=
  body.tails.any fun t => "not_found".toList.isPrefixOf t

/-- `isCursorResetResponse` (line 480). -/
def isCursorResetResponse (body : List Char) : Bool :=
  let lowered := body.map lowerChar
  (lowered.tails.any fun t => "reset/".toList.isPrefixOf t) ||
  (lowered.tails.any fun t => "\"reset\"".toList.isPrefixOf t) ||
  (lowered.tails.any fun t => ".tag: reset".toList.isPrefixOf t)

/-- One `fetch` outcome in a scripted run of `fetchWithRetry`: a
network-level failure (the `fetch` call threw), or a response with status,
body and Retry-After header. -/
inductive FetchOutcome
  | netError
  | resp (status : Nat) (body : List Char) (retryAfter : RetryAfterHeader)
deriving DecidableEq

inductive CallResult
  | success (status : Nat) (body : List Char)
  | unreachable
  | permanentError (status : Nat) (body : List Char)
  | cursorReset
  | outOfScript
deriving DecidableEq

structure FetchTrace where
  result : CallResult
  fetches : Nat
  delays : List Int
deriving DecidableEq

/-- The retry loop of `fetchWithRetry` over a response script, one script
element per `fetch` call.  `CallResult.unreachable` is the distinguished
`DropboxReachabilityError`, `permanentError` the generic `Error` carrying
the status and response body, `cursorReset` the `DropboxCursorResetError`;
`outOfScript` is a model artifact for an exhausted script.  The trace
records the number of `fetch` calls and the sequence of backoff delays. -/
def fetchLoop (hasRefresh allowNotFound allowCursorReset : Bool) :
    Nat → Bool → List FetchOutcome → FetchTrace
  | _, _, [] => ⟨.outOfScript, 0, []⟩
  | attempt, refreshed, o :: script =>
    match o with
    | .netError =>
      if attempt = 6 then ⟨.unreachable, 1, []⟩
      else
        let t := fetchLoop hasRefresh allowNotFound allowCursorReset
          (attempt + 1) refreshed script
        ⟨t.result, t.fetches + 1, netRetryDelayMs attempt :: t.delays⟩
    | .resp status body retryAfter =>
      if isOkStatus status = true then ⟨.success status body, 1, []⟩
      else if status = 401 ∧ hasRefresh = true ∧ refreshed = false then
        let t := fetchLoop hasRefresh allowNotFound allowCursorReset attempt true script
        ⟨t.result, t.fetches + 1, t.delays⟩
      else if status = 409 ∧ allowNotFound = true ∧ bodyHasNotFound body = true then
        ⟨.success status body, 1, []⟩
      else if status = 409 ∧ allowCursorReset = true ∧ isCursorResetResponse body = true then
        ⟨.cursorReset, 1, []⟩
      else if ¬ isTransientStatus status = true then ⟨.permanentError status body, 1, []⟩
      else if attempt = 6 then
        if 500 ≤ status then ⟨.unreachable, 1, []⟩ else ⟨.permanentError status body, 1, []⟩
      else
        let t := fetchLoop hasRefresh allowNotFound allowCursorReset
          (attempt + 1) refreshed script
        ⟨t.result, t.fetches + 1, getRetryDelayMs retryAfter attempt :: t.delays⟩

def fetchWithRetry (hasRefresh allowNotFound allowCursorReset : Bool)
    (script : List FetchOutcome) : FetchTrace :=
  fetchLoop hasRefresh allowNotFound allowCursorReset 1 false script

/-! ## `listDelta` (DropboxClient.ts line 283) -/
inductive DropboxEntry
  | file (e : RemoteFileEntry)
  | deleted (e : RemoteDeletedEntry)

/-- One `list_folder` or `list_folder/continue` response in a scripted run:
a page, a 409 whose body marks a cursor reset, or any other terminal
`fetchWithRetry` failure. -/
inductive ListCallResp
  | page (entries : List DropboxEntry) (cursor : List Char) (hasMore : Bool)
  | reset
  | failure

inductive ListDeltaError
  | cursorReset
  | failed
deriving DecidableEq

/-- The pagination loop of `listDeltaInternal` (line 300) over a response
script, one script element per listing call.  `isContinue` records whether
the next call is a `list_folder/continue` call: those run with
`allowCursorReset`, so a reset response raises the distinguished
`DropboxCursorResetError`; on the initial `list_folder` call the same 409
is an ordinary permanent error.  Returns the accumulated entries with the
final cursor, or the error, plus the unconsumed script. -/
def listDeltaInternalAux (acc : List DropboxEntry) (isContinue : Bool) :
    List ListCallResp →
      (Except ListDeltaError (List DropboxEntry × List Char)) × List ListCallResp
  | [] => (.error .failed, [])
  | r :: rest =>
    match r with
    | .page es c hm =>
      if hm then listDeltaInternalAux (acc ++ es) true rest
      else (.ok (acc ++ es, c), rest)
    | .reset => (if isContinue then .error .cursorReset else .error .failed, rest)
    | .failure => (.error .failed, rest)

def listDeltaInternal (cursor : Option (List Char)) (script : List ListCallResp) :
    (Except ListDeltaError (List DropboxEntry × List Char)) × List ListCallResp :=
  listDeltaInternalAux [] cursor.isSome script

/-- `listDelta` (line 283): a `DropboxCursorResetError` from the first
internal listing triggers exactly one fresh full listing over the remaining
script; any other error propagates. -/
def listDelta (cursor : Option (List Char)) (script : List ListCallResp) :
    Except ListDeltaError (List DropboxEntry × List Char) :=
  match listDeltaInternal cursor script with
  | (.ok r, _) => .ok r
  | (.error .cursorReset, rest) => (listDeltaInternal none rest).1
  | (.error .failed, _) => .error .failed

theorem toNat_ofNat_valid {n : Nat} (h : n.isValidChar) : (Char.ofNat n).toNat = n := by
  unfold Char.ofNat
  rw [dif_pos h]
  rfl

theorem lowerChar_toNat_of_upper {c : Char} (h : (65 ≤ c.toNat && c.toNat ≤ 90) = true) :
    (lowerChar c).toNat = c.toNat + 32 := by
  unfold lowerChar
  rw [if_pos h]
  simp only [Bool.and_eq_true, decide_eq_true_eq] at h
  exact toNat_ofNat_valid (Or.inl (by omega))

theorem lowerChar_of_not_upper {c : Char} (h : ¬ (65 ≤ c.toNat && c.toNat ≤ 90) = true) :
    lowerChar c = c := by
  unfold lowerChar
  rw [if_neg h]

theorem isWsChar_iff (c : Char) : isWsChar c = true ↔
    ((9 ≤ c.toNat ∧ c.toNat ≤ 13) ∨ c.toNat = 32 ∨ c.toNat = 160 ∨ c.toNat = 5760 ∨
     (8192 ≤ c.toNat ∧ c.toNat ≤ 8202) ∨ c.toNat = 8232 ∨ c.toNat = 8233 ∨
     c.toNat = 8239 ∨ c.toNat = 8287 ∨ c.toNat = 12288 ∨ c.toNat = 65279) := by
  unfold isWsChar
  simp only [Bool.or_eq_true, Bool.and_eq_true, decide_eq_true_eq]
  tauto

theorem lowerChar_isWs (c : Char) : isWsChar (lowerChar c) = isWsChar c := by
  by_cases hc : (65 ≤ c.toNat && c.toNat ≤ 90) = true
  · have ht := lowerChar_toNat_of_upper hc
    simp only [Bool.and_eq_true, decide_eq_true_eq] at hc
    have h1 : isWsChar (lowerChar c) = false := by
      rw [Bool.eq_false_iff]
      intro hw
      rw [isWsChar_iff, ht] at hw
      omega
    have h2 : isWsChar c = false := by
      rw [Bool.eq_false_iff]
      intro hw
      rw [isWsChar_iff] at hw
      omega
    rw [h1, h2]
  · rw [lowerChar_of_not_upper hc]

theorem lowerChar_lowerChar (c : Char) : lowerChar (lowerChar c) = lowerChar c := by
  by_cases hc : (65 ≤ c.toNat && c.toNat ≤ 90) = true
  · have ht := lowerChar_toNat_of_upper hc
    simp only [Bool.and_eq_true, decide_eq_true_eq] at hc
    apply lowerChar_of_not_upper
    simp only [Bool.and_eq_true, decide_eq_true_eq]
    rw [ht]
    omega
  · rw [lowerChar_of_not_upper hc, lowerChar_of_not_upper hc]

/-- For a target character outside the lower-case letter range, `lowerChar`
mapping to it forces equality (used for `#`, `/`, `)` and similar). -/
theorem eq_of_lowerChar_eq {c d : Char} (hd : ¬ (97 ≤ d.toNat ∧ d.toNat ≤ 122))
    (he : lowerChar c = d) : c = d := by
  by_cases hc : (65 ≤ c.toNat && c.toNat ≤ 90) = true
  · exfalso
    have ht := lowerChar_toNat_of_upper hc
    rw [he] at ht
    simp only [Bool.and_eq_true, decide_eq_true_eq] at hc
    exact hd ⟨by omega, by omega⟩
  · rw [lowerChar_of_not_upper hc] at he
    exact he

/-! ## Generic list helpers -/
theorem dropWhile_head?_not {α : Type} (p : α → Bool) (l : List α) :
    ∀ c, (l.dropWhile p).head? = some c → p c = false := by
  induction l with
  | nil => intro c h; simp [List.dropWhile] at h
  | cons a t ih =>
    intro c h
    by_cases hp : p a = true
    · rw [List.dropWhile_cons_of_pos hp] at h
      exact ih c h
    · rw [List.dropWhile_cons_of_neg hp] at h
      simp only [List.head?_cons, Option.some.injEq] at h
      subst h
      exact Bool.eq_false_iff.mpr hp

theorem dropWhile_eq_self_of_head {α : Type} (p : α → Bool) (l : List α)
    (h : ∀ c, l.head? = some c → p c = false) : l.dropWhile p = l := by
  cases l with
  | nil => rfl
  | cons a t =>
    have ha := h a rfl
    rw [List.dropWhile_cons_of_neg (by simp [ha])]

/-! ## Claim C8: `normalizeTag` idempotence and insensitivity -/
theorem trimChars_getLast?_not (l : List Char) :
    ∀ c, (trimChars l).getLast? = some c → isWsChar c = false := by
  intro c h
  unfold trimChars at h
  rw [List.getLast?_reverse] at h
  exact dropWhile_head?_not _ _ c h

theorem trimChars_eq_self (l : List Char)
    (hh : ∀ c, l.head? = some c → isWsChar c = false)
    (ht : ∀ c, l.getLast? = some c → isWsChar c = false) :
    trimChars l = l := by
  unfold trimChars
  rw [dropWhile_eq_self_of_head _ _ hh]
  rw [dropWhile_eq_self_of_head _ _ (fun c hc => ht c ((List.head?_reverse l) ▸ hc))]
  exact List.reverse_reverse l

theorem normalizeTag_getLast?_not (t : List Char) :
    ∀ c, (normalizeTag t).getLast? = some c → isWsChar c = false := by
  intro c h
  unfold normalizeTag at h
  rw [← List.head?_reverse, ← List.map_reverse, List.head?_map] at h
  rcases Option.map_eq_some'.mp h with ⟨c₀, hc₀, hlc⟩
  rw [List.head?_reverse] at hc₀
  have hlast : isWsChar c₀ = false := by
    unfold dropLeadingHashes at hc₀
    rcases hv : (trimChars t).dropWhile (fun c => c = '#') with _ | ⟨a, v⟩
    · rw [hv] at hc₀
      simp at hc₀
    · have hw : (trimChars t).getLast? = some c₀ := by
        conv_lhs => rw [← List.takeWhile_append_dropWhile (fun c => c = '#') (trimChars t)]
        rw [List.getLast?_append_of_ne_nil _ (by rw [hv]; simp)]
        rw [← hc₀, hv]
      exact trimChars_getLast?_not t c₀ hw
  rw [← hlc, lowerChar_isWs]
  exact hlast

theorem normalizeTag_head?_not_hash (t : List Char) :
    ∀ c, (normalizeTag t).head? = some c → (decide (c = '#')) = false := by
  intro c h
  unfold normalizeTag at h
  rw [List.head?_map] at h
  rcases Option.map_eq_some'.mp h with ⟨c₀, hc₀, hlc⟩
  have h₀ : (decide (c₀ = '#')) = false := dropWhile_head?_not _ _ c₀ hc₀
  simp only [decide_eq_false_iff_not] at h₀ ⊢
  intro he
  rw [he] at hlc
  exact h₀ (eq_of_lowerChar_eq (by decide) hlc)

/-- C8 (amended).  `normalizeTag` (settings.ts line 6) trims *before* stripping
the leading `#` run, so stripping can expose leading whitespace and a second
application then removes it: idempotence holds exactly when the normalized
result has no leading whitespace.  The case/hash-prefix insensitivity
equalities of the claim do hold. -/
theorem c8_normalizeTag_idempotent_of_no_leading_ws (t : List Char)
    (h : ∀ c, (normalizeTag t).head? = some c → isWsChar c = false) :
    normalizeTag (normalizeTag t) = normalizeTag t ∧
    normalizeTag "#Foo".toList = normalizeTag "foo".toList ∧
    normalizeTag "foo".toList = normalizeTag " FOO ".toList := by
  refine ⟨?_, by decide, by decide⟩
  show (dropLeadingHashes (trimChars (normalizeTag t))).map lowerChar = normalizeTag t
  rw [trimChars_eq_self _ h (normalizeTag_getLast?_not t)]
  rw [show dropLeadingHashes (normalizeTag t) = normalizeTag t from
    dropWhile_eq_self_of_head _ _ (normalizeTag_head?_not_hash t)]
  unfold normalizeTag
  rw [List.map_map]
  exact List.map_congr_left fun a _ => lowerChar_lowerChar a

/-- C8 counterexample: the claim's unconditional idempotence fails at the
concrete input `"# a"`, where `normalizeTag` yields `" a"` but a second
application yields `"a"`. -/
theorem c8_counterexample :
    normalizeTag (normalizeTag "# a".toList) ≠ normalizeTag "# a".toList := by
  decide

theorem c8_witness :
    normalizeTag (normalizeTag "#Foo".toList) = normalizeTag "#Foo".toList :=
  (c8_normalizeTag_idempotent_of_no_leading_ws "#Foo".toList (by
    intro c hc
    have hf : (normalizeTag "#Foo".toList).head? = some 'f' := by decide
    rw [hf] at hc
    cases hc
    decide)).1

theorem noConsecSlash_cons (c : Char) (l : List Char) :
    noConsecSlash (c :: l) = true ↔
      (∀ d, l.head? = some d → ¬(c = '/' ∧ d = '/')) ∧ noConsecSlash l = true := by
  cases l with
  | nil => simp [noConsecSlash]
  | cons d u =>
    show (!(c = '/' && d = '/') && noConsecSlash (d :: u)) = true ↔ _
    simp only [Bool.and_eq_true, Bool.not_eq_true', Bool.and_eq_false_iff,
      decide_eq_false_iff_not, List.head?_cons]
    constructor
    · rintro ⟨h1, h2⟩
      refine ⟨?_, h2⟩
      rintro e he ⟨hc, hd⟩
      cases he
      rcases h1 with h | h
      · exact h hc
      · exact h hd
    · rintro ⟨h1, h2⟩
      refine ⟨?_, h2⟩
      by_cases hc : c = '/'
      · right
        intro hd
        exact h1 d rfl ⟨hc, hd⟩
      · left
        exact hc

theorem noConsecSlash_tail {c : Char} {l : List Char}
    (h : noConsecSlash (c :: l) = true) : noConsecSlash l = true :=
  ((noConsecSlash_cons c l).mp h).2

theorem collapseAux_true_head : ∀ l : List Char, (collapseAux true l).head? ≠ some '/' := by
  intro l
  induction l with
  | nil => simp [collapseAux]
  | cons c rest ih =>
    unfold collapseAux
    by_cases hc : c = '/'
    · rw [if_pos hc, if_pos rfl]
      exact ih
    · rw [if_neg hc]
      simp only [List.head?_cons, ne_eq, Option.some.injEq]
      exact hc

theorem noConsecSlash_collapseAux : ∀ (b : Bool) (l : List Char),
    noConsecSlash (collapseAux b l) = true := by
  intro b l
  induction l generalizing b with
  | nil => rfl
  | cons c rest ih =>
    unfold collapseAux
    by_cases hc : c = '/'
    · rw [if_pos hc]
      cases b with
      | true => exact ih true
      | false =>
        rw [if_neg (by simp)]
        rw [noConsecSlash_cons]
        refine ⟨?_, ih true⟩
        intro d hd hpair
        exact collapseAux_true_head rest (hpair.2 ▸ hd)
    · rw [if_neg hc]
      rw [noConsecSlash_cons]
      refine ⟨?_, ih false⟩
      intro d _ hpair
      exact hc hpair.1

theorem collapseAux_eq_self : ∀ (b : Bool) (l : List Char),
    noConsecSlash l = true → (b = true → l.head? ≠ some '/') → collapseAux b l = l := by
  intro b l
  induction l generalizing b with
  | nil => intro _ _; rfl
  | cons c rest ih =>
    intro hnc hb
    by_cases hc : c = '/'
    · have hbf : b = false := by
        cases b with
        | false => rfl
        | true => exact absurd (by simp [hc]) (hb rfl)
      subst hbf hc
      unfold collapseAux
      rw [if_pos rfl, if_neg (by simp)]
      congr 1
      refine ih true (noConsecSlash_tail hnc) ?_
      intro _ hh
      exact ((noConsecSlash_cons _ _).mp hnc).1 '/' hh ⟨rfl, rfl⟩
    · unfold collapseAux
      rw [if_neg hc]
      congr 1
      exact ih false (noConsecSlash_tail hnc) (by simp)

theorem noConsecSlash_append (x y : List Char) (hx : noConsecSlash x = true)
    (hxl : x.getLast? ≠ some '/') (hy : noConsecSlash y = true)
    (hyh : y.head? ≠ some '/') : noConsecSlash (x ++ '/' :: y) = true := by
  induction x with
  | nil =>
    rw [List.nil_append, noConsecSlash_cons]
    refine ⟨?_, hy⟩
    intro d hd hpair
    exact hyh (hpair.2 ▸ hd)
  | cons a x' ih =>
    cases x' with
    | nil =>
      rw [List.cons_append, List.nil_append, noConsecSlash_cons]
      refine ⟨?_, ?_⟩
      · intro d _ hpair
        exact hxl (by simp [hpair.1])
      · rw [noConsecSlash_cons]
        refine ⟨?_, hy⟩
        intro d hd hpair
        exact hyh (hpair.2 ▸ hd)
    | cons b x'' =>
      rw [List.cons_append, noConsecSlash_cons]
      constructor
      · intro d hd hpair
        rw [List.cons_append, List.head?_cons] at hd
        cases hd
        exact ((noConsecSlash_cons a (b :: x'')).mp hx).1 b rfl hpair
      · refine ih (noConsecSlash_tail hx) ?_
        rw [List.getLast?_cons_cons] at hxl
        exact hxl

theorem noConsecSlash_append_left (x t : List Char)
    (h : noConsecSlash (x ++ t) = true) : noConsecSlash x = true := by
  induction x with
  | nil => rfl
  | cons a x' ih =>
    rw [List.cons_append, noConsecSlash_cons] at h
    rw [noConsecSlash_cons]
    refine ⟨?_, ih h.2⟩
    intro d hd
    refine h.1 d ?_
    cases x' with
    | nil => simp at hd
    | cons e u =>
      simp only [List.head?_cons, Option.some.injEq] at hd
      rw [List.cons_append, List.head?_cons, hd]

theorem mem_collapseAux {c : Char} : ∀ (b : Bool) (l : List Char),
    c ∈ collapseAux b l → c ∈ l := by
  intro b l
  induction l generalizing b with
  | nil => intro h; exact absurd h (by simp [collapseAux])
  | cons a rest ih =>
    intro h
    unfold collapseAux at h
    by_cases ha : a = '/'
    · rw [if_pos ha] at h
      by_cases hb : b = true
      · rw [if_pos hb] at h
        exact List.mem_cons_of_mem a (ih true h)
      · rw [if_neg hb] at h
        rcases List.mem_cons.mp h with h | h
        · exact List.mem_cons.mpr (Or.inl h)
        · exact List.mem_cons_of_mem a (ih true h)
    · rw [if_neg ha] at h
      rcases List.mem_cons.mp h with h | h
      · exact List.mem_cons.mpr (Or.inl h)
      · exact List.mem_cons_of_mem a (ih false h)

theorem mem_dropTrailingSlashes {c : Char} {l : List Char}
    (h : c ∈ dropTrailingSlashes l) : c ∈ l := by
  unfold dropTrailingSlashes at h
  rw [List.mem_reverse] at h
  have := (@List.dropWhile_suffix _ l.reverse (fun c => c = '/')).subset h
  rw [List.mem_reverse] at this
  exact this

theorem mem_replaceBackslash {c : Char} {l : List Char}
    (h : c ∈ replaceBackslash l) : c ≠ '\\' := by
  unfold replaceBackslash at h
  rcases List.mem_map.mp h with ⟨d, _, hd⟩
  intro he
  rw [he] at hd
  by_cases hdb : d = '\\'
  · rw [if_pos hdb] at hd
    exact absurd hd (by decide)
  · rw [if_neg hdb] at hd
    exact hdb hd

theorem replaceBackslash_eq_self {l : List Char} (h : '\\' ∉ l) :
    replaceBackslash l = l := by
  unfold replaceBackslash
  conv_rhs => rw [← List.map_id l]
  refine List.map_congr_left ?_
  intro a ha
  rw [if_neg (fun he => h (by rw [he] at ha; exact ha))]
  rfl

theorem collapseSlashes_head? (l : List Char) (h : l ≠ []) :
    (collapseSlashes l).head? = l.head? := by
  cases l with
  | nil => exact absurd rfl h
  | cons c rest =>
    unfold collapseSlashes collapseAux
    by_cases hc : c = '/'
    · rw [if_pos hc, if_neg (by simp)]
      rfl
    · rw [if_neg hc]
      rfl

theorem dropTrailingSlashes_prefixOf (l : List Char) : dropTrailingSlashes l <+: l := by
  unfold dropTrailingSlashes
  have h := List.reverse_prefix.mpr (@List.dropWhile_suffix _ l.reverse fun c => c = '/')
  rwa [List.reverse_reverse] at h

theorem prefix_head? {α : Type} {x l : List α} (h : x <+: l) (hne : x ≠ []) :
    x.head? = l.head? := by
  rcases h with ⟨t, rfl⟩
  cases x with
  | nil => exact absurd rfl hne
  | cons a u => rfl

theorem dropTrailingSlashes_getLast?_ne (l : List Char) :
    (dropTrailingSlashes l).getLast? ≠ some '/' := by
  intro h
  unfold dropTrailingSlashes at h
  rw [List.getLast?_reverse] at h
  have := dropWhile_head?_not _ _ _ h
  simp at this

theorem nrbp_eq (b : List Char) :
    normalizeRemoteBasePath b =
      if replaceBackslash (trimChars b) = [] ∨ replaceBackslash (trimChars b) = ['/']
      then ['/']
      else dropTrailingSlashes (collapseSlashes
        (if (replaceBackslash (trimChars b)).head? = some '/' then replaceBackslash (trimChars b)
         else '/' :: replaceBackslash (trimChars b))) := rfl

/-- Structural facts about `normalizeRemoteBasePath`: it is either the root
`"/"` or a string with no consecutive slashes, no trailing slash, a leading
slash (when nonempty) and no backslash. -/
theorem nrbp_cases (b : List Char) :
    normalizeRemoteBasePath b = ['/'] ∨
    (noConsecSlash (normalizeRemoteBasePath b) = true ∧
     (normalizeRemoteBasePath b).getLast? ≠ some '/' ∧
     (normalizeRemoteBasePath b = [] ∨ (normalizeRemoteBasePath b).head? = some '/') ∧
     '\\' ∉ normalizeRemoteBasePath b) := by
  rw [nrbp_eq]
  split
  · left
    rfl
  · next hne =>
    right
    refine ⟨?_, ?_, ?_, ?_⟩
    · rcases dropTrailingSlashes_prefixOf
        (collapseSlashes (if (replaceBackslash (trimChars b)).head? = some '/'
          then replaceBackslash (trimChars b) else '/' :: replaceBackslash (trimChars b)))
        with ⟨t, heq⟩
      refine noConsecSlash_append_left _ t ?_
      rw [heq]
      exact noConsecSlash_collapseAux false _
    · exact dropTrailingSlashes_getLast?_ne _
    · by_cases hres : dropTrailingSlashes
        (collapseSlashes (if (replaceBackslash (trimChars b)).head? = some '/'
          then replaceBackslash (trimChars b) else '/' :: replaceBackslash (trimChars b))) = []
      · left
        exact hres
      · right
        set t := replaceBackslash (trimChars b) with ht
        have hwne : (if t.head? = some '/' then t else '/' :: t) ≠ [] := by
          split
          · next hth =>
            intro he
            rw [he] at hth
            simp at hth
          · simp
        have hwh : (if t.head? = some '/' then t else '/' :: t).head? = some '/' := by
          split
          · next hth => exact hth
          · rfl
        rw [prefix_head? (dropTrailingSlashes_prefixOf _) hres]
        rw [collapseSlashes_head? _ hwne]
        exact hwh
    · intro hmem
      have h1 := mem_dropTrailingSlashes hmem
      have h2 := mem_collapseAux false _ h1
      have h3 : '\\' ∈ '/' :: replaceBackslash (trimChars b) ∨
          '\\' ∈ replaceBackslash (trimChars b) := by
        revert h2
        split
        · intro h2
          right
          exact h2
        · intro h2
          left
          exact h2
      rcases h3 with h3 | h3
      · rcases List.mem_cons.mp h3 with h | h
        · exact absurd h (by decide)
        · exact mem_replaceBackslash h rfl
      · exact mem_replaceBackslash h3 rfl

/-- A path that is already in the normal form produced by the remote-path
normalizer is a fixed point of `normalizeRemoteBasePath`. -/
theorem nrbp_of_normalized (r : List Char)
    (hh : r.head? = some '/')
    (hbs : '\\' ∉ r)
    (hcs : noConsecSlash r = true)
    (hlw : ∀ c, r.getLast? = some c → isWsChar c = false)
    (hls : r.getLast? ≠ some '/')
    (hne1 : r ≠ ['/']) :
    normalizeRemoteBasePath r = r := by
  have hne : r ≠ [] := by
    intro he
    rw [he] at hh
    simp at hh
  have hhw : ∀ c, r.head? = some c → isWsChar c = false := by
    intro c hc
    rw [hh] at hc
    cases hc
    decide
  have htrim : trimChars r = r := trimChars_eq_self r hhw hlw
  have hrb : replaceBackslash r = r := replaceBackslash_eq_self hbs
  unfold normalizeRemoteBasePath
  simp only [htrim, hrb]
  rw [if_neg (by
    rintro (he | he)
    · exact hne he
    · exact hne1 he)]
  rw [if_pos hh]
  rw [show collapseSlashes r = r from collapseAux_eq_self false r hcs (by simp)]
  unfold dropTrailingSlashes
  rw [dropWhile_eq_self_of_head _ _ (by
    intro c hc
    rw [List.head?_reverse] at hc
    simp only [decide_eq_false_iff_not]
    intro he
    rw [he] at hc
    exact hls hc)]
  exact List.reverse_reverse r

theorem nlp_eq_self {p : List Char} (hbs : '\\' ∉ p) (hh : p.head? ≠ some '/') :
    normalizeLocalPath p = p := by
  unfold normalizeLocalPath dropLeadingSlashes
  rw [replaceBackslash_eq_self hbs]
  refine dropWhile_eq_self_of_head _ _ ?_
  intro c hc
  simp only [decide_eq_false_iff_not]
  intro he
  rw [he] at hc
  exact hh hc

theorem toRemotePath_eq (b p : List Char) :
    toRemotePath b p =
      if normalizeRemoteBasePath b = ['/'] then '/' :: normalizeLocalPath p
      else collapseSlashes (normalizeRemoteBasePath b ++ '/' :: normalizeLocalPath p) := rfl

theorem toLocalPath_eq (b r : List Char) :
    toLocalPath b r =
      if normalizeRemoteBasePath b = ['/']
      then some (dropLeadingSlashes (normalizeRemoteBasePath r))
      else if normalizeRemoteBasePath r = normalizeRemoteBasePath b then none
      else if (normalizeRemoteBasePath b ++ ['/']).isPrefixOf (normalizeRemoteBasePath r)
      then some ((normalizeRemoteBasePath r).drop ((normalizeRemoteBasePath b).length + 1))
      else none := rfl

/-- C10 (confirmed): for every remote base path `b` and every local path `p`
that is nonempty, backslash-free, does not start or end with `/`, has no
empty segment and no leading or trailing whitespace,
`toLocalPath b (toRemotePath b p) = some p`. -/
theorem c10_toLocalPath_toRemotePath_roundTrip (b p : List Char)
    (hne : p ≠ [])
    (hbs : '\\' ∉ p)
    (hh : p.head? ≠ some '/')
    (hl : p.getLast? ≠ some '/')
    (hcs : noConsecSlash p = true)
    (hwh : ∀ c, p.head? = some c → isWsChar c = false)
    (hwl : ∀ c, p.getLast? = some c → isWsChar c = false) :
    toLocalPath b (toRemotePath b p) = some p := by
  have hnlp : normalizeLocalPath p = p := nlp_eq_self hbs hh
  have hconsp : ∀ (x : List Char), (x ++ '/' :: p).getLast? = p.getLast? := by
    intro x
    rw [List.getLast?_append_of_ne_nil x (by simp)]
    rw [show ('/' :: p) = ['/'] ++ p from rfl, List.getLast?_append_of_ne_nil _ hne]
  rcases nrbp_cases b with hB | ⟨hBnc, hBlast, hBhead, hBbs⟩
  · rw [toRemotePath_eq, if_pos hB, hnlp]
    rw [toLocalPath_eq, if_pos hB]
    have hr : normalizeRemoteBasePath ('/' :: p) = '/' :: p := by
      apply nrbp_of_normalized
      · rfl
      · intro hm
        rcases List.mem_cons.mp hm with hx | hx
        · exact absurd hx (by decide)
        · exact hbs hx
      · have := noConsecSlash_append [] p rfl (by simp) hcs hh
        simpa using this
      · intro c hc
        rw [show ('/' :: p : List Char) = [] ++ '/' :: p from rfl, hconsp] at hc
        exact hwl c hc
      · rw [show ('/' :: p : List Char) = [] ++ '/' :: p from rfl, hconsp]
        exact hl
      · intro he
        injection he with _ h2
        exact hne h2
    rw [hr]
    unfold dropLeadingSlashes
    rw [List.dropWhile_cons_of_pos (by decide)]
    rw [dropWhile_eq_self_of_head _ _ (fun c hc => by
      simp only [decide_eq_false_iff_not]
      intro he
      rw [he] at hc
      exact hh hc)]
  · have hBne1 : normalizeRemoteBasePath b ≠ ['/'] := by
      intro he
      rw [he] at hBlast
      exact hBlast rfl
    have hcoll : collapseSlashes (normalizeRemoteBasePath b ++ '/' :: p) =
        normalizeRemoteBasePath b ++ '/' :: p := by
      apply collapseAux_eq_self
      · exact noConsecSlash_append _ p hBnc hBlast hcs hh
      · simp
    rw [toRemotePath_eq, if_neg hBne1, hnlp, hcoll]
    have hrlast : (normalizeRemoteBasePath b ++ '/' :: p).getLast? = p.getLast? :=
      hconsp _
    have hrhead : (normalizeRemoteBasePath b ++ '/' :: p).head? = some '/' := by
      rcases hBhead with hB0 | hBh
      · rw [hB0]
        rfl
      · cases hBe : normalizeRemoteBasePath b with
        | nil => rfl
        | cons c u =>
          rw [hBe] at hBh
          rw [List.cons_append]
          exact hBh
    have hr : normalizeRemoteBasePath (normalizeRemoteBasePath b ++ '/' :: p) =
        normalizeRemoteBasePath b ++ '/' :: p := by
      apply nrbp_of_normalized
      · exact hrhead
      · intro hm
        rcases List.mem_append.mp hm with hx | hx
        · exact hBbs hx
        · rcases List.mem_cons.mp hx with hy | hy
          · exact absurd hy (by decide)
          · exact hbs hy
      · exact noConsecSlash_append _ p hBnc hBlast hcs hh
      · intro c hc
        rw [hrlast] at hc
        exact hwl c hc
      · rw [hrlast]
        exact hl
      · intro he
        have h2 : (normalizeRemoteBasePath b ++ '/' :: p).getLast? = some '/' := by
          rw [he]
          rfl
        rw [hrlast] at h2
        exact hl h2
    rw [toLocalPath_eq, if_neg hBne1, hr]
    rw [if_neg (by
      intro he
      have hlen := congrArg List.length he
      simp only [List.length_append, List.length_cons] at hlen
      omega)]
    have hsplit : normalizeRemoteBasePath b ++ '/' :: p =
        (normalizeRemoteBasePath b ++ ['/']) ++ p := by
      rw [List.append_assoc]
      rfl
    rw [if_pos (by
      rw [List.isPrefixOf_iff_prefix, hsplit]
      exact List.prefix_append _ p)]
    rw [hsplit]
    have hlen1 : (normalizeRemoteBasePath b).length + 1 =
        (normalizeRemoteBasePath b ++ ['/']).length := by
      simp
    rw [hlen1, List.drop_left]

theorem c10_witness :
    toLocalPath "/notes".toList (toRemotePath "/notes".toList "a/b.md".toList) =
      some "a/b.md".toList := by
  apply c10_toLocalPath_toRemotePath_roundTrip
  · decide
  · decide
  · decide
  · decide
  · decide
  · intro c hc
    have hx : ("a/b.md".toList).head? = some 'a' := rfl
    rw [hx] at hc
    cases hc
    decide
  · intro c hc
    have hx : ("a/b.md".toList).getLast? = some 'd' := by decide
    rw [hx] at hc
    cases hc
    decide

/-! ## Claim C7: conflict copies and ignored paths never enter the scope -/
theorem getLast?_map (f : Char → Char) (l : List Char) :
    (l.map f).getLast? = l.getLast?.map f := by
  rw [← List.head?_reverse, ← List.map_reverse, List.head?_map, List.head?_reverse]

theorem nlp_ne_nil_of_md {q : List Char} (h : isMarkdownPath q = true) :
    normalizeLocalPath q ≠ [] := by
  unfold isMarkdownPath at h
  rw [List.isSuffixOf_iff_suffix] at h
  rcases h with ⟨pre, hpre⟩
  have hlast : (q.map lowerChar).getLast? = some 'd' := by
    rw [← hpre, List.getLast?_append_of_ne_nil pre (by simp)]
    decide
  rw [getLast?_map] at hlast
  rcases Option.map_eq_some'.mp hlast with ⟨c, hc, hlc⟩
  have hcd : c ≠ '/' := by
    intro he
    rw [he] at hlc
    exact absurd hlc (by decide)
  have hcb : c ≠ '\\' := by
    intro he
    rw [he] at hlc
    exact absurd hlc (by decide)
  unfold normalizeLocalPath dropLeadingSlashes
  intro hnil
  rw [List.dropWhile_eq_nil_iff] at hnil
  have hmem : (if c = '\\' then '/' else c) ∈ replaceBackslash q := by
    unfold replaceBackslash
    exact List.mem_map_of_mem _ (List.mem_of_mem_getLast? hc)
  have := hnil _ hmem
  rw [if_neg hcb] at this
  simp only [decide_eq_true_eq] at this
  exact hcd this

/-- C7 (confirmed): whenever the vault listing contains only markdown files
(the contract of `getMarkdownFiles`), no member of the computed scope is a
conflict-copy artifact, and no member matches any ignore glob — regardless of
the tags the files carry. -/
theorem c7_scope_excludes_conflict_and_ignored
    (tagsToSync ignoreGlobs : List (List Char)) (files : List VaultFile)
    (hmd : ∀ f ∈ files, isMarkdownPath f.path = true)
    (p : List Char) (hp : p ∈ buildTaggedFileSet tagsToSync ignoreGlobs files) :
    isConflictCopyPath p = false ∧
    ∀ g ∈ ignoreGlobs, gmatch (globTokens (globPreprocess g)) p = false := by
  unfold buildTaggedFileSet at hp
  by_cases hz : normalizeTags tagsToSync = []
  · rw [if_pos hz] at hp
    exact absurd hp (by simp)
  · rw [if_neg hz] at hp
    rw [List.mem_filterMap] at hp
    rcases hp with ⟨file, hfile, hval⟩
    by_cases hig : ((ignoreGlobs.filter fun g => ¬ g = []).map
        fun g => globTokens (globPreprocess g)).any
          (fun m => gmatch m (normalizeLocalPath file.path)) = true
    · rw [if_pos hig] at hval
      exact absurd hval (by simp)
    · rw [if_neg hig] at hval
      by_cases hcc : isConflictCopyPath (normalizeLocalPath file.path) = true
      · rw [if_pos hcc] at hval
        exact absurd hval (by simp)
      · rw [if_neg hcc] at hval
        by_cases hht : fileHasAnyTag file (normalizeTags tagsToSync) = true
        · rw [if_pos hht] at hval
          have hpv : p = normalizeLocalPath file.path := by
            injection hval with h
            exact h.symm
          subst hpv
          refine ⟨Bool.eq_false_iff.mpr hcc, ?_⟩
          intro g hg
          by_cases hgnil : g = []
          · subst hgnil
            have hne := nlp_ne_nil_of_md (hmd file hfile)
            cases hq : normalizeLocalPath file.path with
            | nil => exact absurd hq hne
            | cons a u => simp [globPreprocess, globTokens, gmatch,
                normalizeLocalPath, replaceBackslash, trimChars,
                dropLeadingSlashes]
          · rw [Bool.eq_false_iff]
            intro hgm
            apply hig
            rw [List.any_eq_true]
            refine ⟨globTokens (globPreprocess g), ?_, hgm⟩
            rw [List.mem_map]
            exact ⟨g, List.mem_filter.mpr ⟨hg, by simp [hgnil]⟩, rfl⟩
        · rw [if_neg hht] at hval
          exact absurd hval (by simp)

theorem c7_witness :
    isConflictCopyPath "a.md".toList = false ∧
    (∀ g ∈ [".obsidian/**".toList],
      gmatch (globTokens (globPreprocess g)) "a.md".toList = false) ∧
    isConflictCopyPath "Note (conflict v1 2024-01-01_10-00).md".toList = true ∧
    "Note (conflict v1 2024-01-01_10-00).md".toList ∉
      buildTaggedFileSet ["shared".toList] [".obsidian/**".toList]
        [⟨"a.md".toList, [], FmTagsValue.arrVal ["shared".toList]⟩,
         ⟨"Note (conflict v1 2024-01-01_10-00).md".toList, [],
          FmTagsValue.arrVal ["shared".toList]⟩] := by
  have h := c7_scope_excludes_conflict_and_ignored
    ["shared".toList] [".obsidian/**".toList]
    [⟨"a.md".toList, [], FmTagsValue.arrVal ["shared".toList]⟩,
     ⟨"Note (conflict v1 2024-01-01_10-00).md".toList, [],
      FmTagsValue.arrVal ["shared".toList]⟩]
    (by decide) "a.md".toList (by decide)
  exact ⟨h.1, h.2, by decide, by decide⟩

/-! ## Claim C4: the retry policy of `fetchWithRetry` -/
theorem isTransientStatus_iff (status : Nat) :
    isTransientStatus status = true ↔ status = 429 ∨ 500 ≤ status := by
  unfold isTransientStatus
  simp [Bool.or_eq_true]

theorem isOkStatus_iff (status : Nat) :
    isOkStatus status = true ↔ 200 ≤ status ∧ status ≤ 299 := by
  unfold isOkStatus
  simp [Bool.and_eq_true]

theorem fetchLoop_fetches_le (hR aNF aCR : Bool) (script : List FetchOutcome) :
    ∀ attempt refreshed, attempt ≤ 6 →
    (fetchLoop hR aNF aCR attempt refreshed script).fetches ≤
      (7 - attempt) + (if hR = true ∧ refreshed = false then 1 else 0) := by
  induction script with
  | nil =>
    intro a r _
    simp [fetchLoop]
  | cons o rest ih =>
    intro attempt refreshed h6
    cases o with
    | netError =>
      simp only [fetchLoop]
      split
      · simp only []
        split <;> omega
      · next ha =>
        have hih := ih (attempt + 1) refreshed (by omega)
        simp only []
        revert hih
        split <;> (intro hih; omega)
    | resp status body retryAfter =>
      simp only [fetchLoop]
      split
      · simp only []
        split <;> omega
      · split
        · next h401 =>
          have hih := ih attempt true h6
          rw [if_neg (by simp)] at hih
          rw [if_pos ⟨h401.2.1, h401.2.2⟩]
          simp only []
          omega
        · split
          · simp only []
            split <;> omega
          · split
            · simp only []
              split <;> omega
            · split
              · simp only []
                split <;> omega
              · split
                · split
                  · simp only []
                    split <;> omega
                  · simp only []
                    split <;> omega
                · next ha =>
                  have hih := ih (attempt + 1) refreshed (by omega)
                  simp only []
                  revert hih
                  split <;> (intro hih; omega)

theorem fetchLoop_allNet (hR aNF aCR : Bool) :
    ∀ script : List FetchOutcome, 6 ≤ script.length →
    (∀ o ∈ script, o = FetchOutcome.netError) →
    fetchWithRetry hR aNF aCR script =
      ⟨.unreachable, 6, [1000, 2000, 4000, 8000, 16000]⟩ := by
  intro script hlen hall
  rcases script with _ | ⟨o1, _ | ⟨o2, _ | ⟨o3, _ | ⟨o4, _ | ⟨o5, _ | ⟨o6, rest⟩⟩⟩⟩⟩⟩ <;>
    simp only [List.length_nil, List.length_cons] at hlen <;> try omega
  have e1 := hall o1 (by simp)
  have e2 := hall o2 (by simp)
  have e3 := hall o3 (by simp)
  have e4 := hall o4 (by simp)
  have e5 := hall o5 (by simp)
  have e6 := hall o6 (by simp)
  subst e1 e2 e3 e4 e5 e6
  rfl

theorem fetchLoop_http_const_delay (hR aNF aCR : Bool) (b bok : List Char) :
    ∀ n attempt refreshed, attempt + n ≤ 6 →
    fetchLoop hR aNF aCR attempt refreshed
      (List.replicate n (FetchOutcome.resp 500 b .absent) ++
        [FetchOutcome.resp 200 bok .absent]) =
      ⟨.success 200 bok, n + 1, List.replicate n 1000⟩ := by
  intro n
  induction n with
  | zero =>
    intro attempt refreshed _
    simp only [List.replicate, List.nil_append, fetchLoop]
    rw [if_pos (by decide)]
  | succ m ih =>
    intro attempt refreshed hle
    rw [List.replicate_succ, List.cons_append]
    simp only [fetchLoop]
    rw [if_neg (by decide)]
    rw [if_neg (by rintro ⟨h, _⟩; exact absurd h (by decide))]
    rw [if_neg (by rintro ⟨h, _⟩; exact absurd h (by decide))]
    rw [if_neg (by rintro ⟨h, _⟩; exact absurd h (by decide))]
    rw [if_neg (by decide)]
    rw [if_neg (by omega)]
    rw [ih (attempt + 1) refreshed (by omega)]
    show FetchTrace.mk _ _ _ = _
    rw [show List.replicate (m + 1) (1000 : Int) = 1000 :: List.replicate m 1000 from
      List.replicate_succ 1000 m]
    rfl

theorem fetchLoop_permanent_step (hR aNF aCR : Bool) (attempt : Nat) (refreshed : Bool)
    (status : Nat) (body : List Char) (hd : RetryAfterHeader) (rest : List FetchOutcome)
    (hok : isOkStatus status = false) (htr : isTransientStatus status = false)
    (h401 : ¬ status = 401) (h409 : ¬ status = 409) :
    fetchLoop hR aNF aCR attempt refreshed (FetchOutcome.resp status body hd :: rest) =
      ⟨.permanentError status body, 1, []⟩ := by
  simp only [fetchLoop]
  rw [if_neg (by simp [hok])]
  rw [if_neg (by rintro ⟨h, _⟩; exact h401 h)]
  rw [if_neg (by rintro ⟨h, _⟩; exact h409 h)]
  rw [if_neg (by rintro ⟨h, _⟩; exact h409 h)]
  rw [if_pos (by simp [htr])]

theorem fetchLoop_refresh_step (aNF aCR : Bool) (attempt : Nat)
    (b : List Char) (hd : RetryAfterHeader) (rest : List FetchOutcome) :
    fetchLoop true aNF aCR attempt false (FetchOutcome.resp 401 b hd :: rest) =
      ⟨(fetchLoop true aNF aCR attempt true rest).result,
       (fetchLoop true aNF aCR attempt true rest).fetches + 1,
       (fetchLoop true aNF aCR attempt true rest).delays⟩ := by
  simp only [fetchLoop]
  rw [if_neg (by decide)]
  rw [if_pos (by simp)]

theorem fetchLoop_notFound_step (hR aCR : Bool) (attempt : Nat) (refreshed : Bool)
    (body : List Char) (hd : RetryAfterHeader) (rest : List FetchOutcome)
    (hb : bodyHasNotFound body = true) :
    fetchLoop hR true aCR attempt refreshed (FetchOutcome.resp 409 body hd :: rest) =
      ⟨.success 409 body, 1, []⟩ := by
  simp only [fetchLoop]
  rw [if_neg (by decide)]
  rw [if_neg (by rintro ⟨h, _⟩; exact absurd h (by decide))]
  rw [if_pos (by simp [hb])]

theorem fetchLoop_cursorReset_step (hR : Bool) (attempt : Nat) (refreshed : Bool)
    (body : List Char) (hd : RetryAfterHeader) (rest : List FetchOutcome)
    (hb : isCursorResetResponse body = true) (hnf : bodyHasNotFound body = false) :
    fetchLoop hR true true attempt refreshed (FetchOutcome.resp 409 body hd :: rest) =
      ⟨.cursorReset, 1, []⟩ := by
  simp only [fetchLoop]
  rw [if_neg (by decide)]
  rw [if_neg (by rintro ⟨h, _⟩; exact absurd h (by decide))]
  rw [if_neg (by rintro ⟨_, _, h⟩; rw [hnf] at h; exact absurd h (by decide))]
  rw [if_pos (by simp [hb])]

theorem fetchLoop_transient_step (hR aNF aCR : Bool) (attempt : Nat) (refreshed : Bool)
    (status : Nat) (body : List Char) (hd : RetryAfterHeader) (rest : List FetchOutcome)
    (htr : isTransientStatus status = true) (ha : ¬ attempt = 6) :
    fetchLoop hR aNF aCR attempt refreshed (FetchOutcome.resp status body hd :: rest) =
      ⟨(fetchLoop hR aNF aCR (attempt + 1) refreshed rest).result,
       (fetchLoop hR aNF aCR (attempt + 1) refreshed rest).fetches + 1,
       getRetryDelayMs hd attempt ::
         (fetchLoop hR aNF aCR (attempt + 1) refreshed rest).delays⟩ := by
  have hst := (isTransientStatus_iff status).mp htr
  simp only [fetchLoop]
  rw [if_neg (by rw [isOkStatus_iff]; omega)]
  rw [if_neg (by rintro ⟨h, _⟩; omega)]
  rw [if_neg (by rintro ⟨h, _⟩; omega)]
  rw [if_neg (by rintro ⟨h, _⟩; omega)]
  rw [if_neg (by simp [htr])]
  rw [if_neg ha]

/-- C4 counterexample: with a refresh callback configured, a first 401 is
retried after a token refresh instead of raising a permanent error, and the
delay recorded before the third attempt of an HTTP-transient retry without a
`Retry-After` header is 1000 ms, not the exponential 2000 ms the claim
prescribes — the whole call even succeeds after four requests. -/
theorem c4_counterexample :
    fetchWithRetry true false false
      [FetchOutcome.resp 401 [] .absent, FetchOutcome.resp 500 [] .absent,
       FetchOutcome.resp 500 [] .absent, FetchOutcome.resp 200 [] .absent] =
      ⟨.success 200 [], 4, [1000, 1000]⟩ ∧
    (1000 : Int) ≠ min (1000 * 2 ^ (2 - 1)) 30000 ∧
    isTransientStatus 401 = false ∧ isOkStatus 401 = false := by
  refine ⟨by rfl, by decide, by decide, by decide⟩

/-- C4 (amended).  Every remote call makes at most 6 attempts — at most 7
requests in total when a refresh callback lets a first 401 be retried after
a token refresh; a network failure on the final attempt raises the
distinguished unreachable error, and a run of only network failures backs
off exponentially 1s, 2s, 4s, 8s, 16s; HTTP-transient retries (429 and
≥500) wait `getRetryDelayMs`, whose delay depends on how the `Retry-After`
header reads through `Number(...)`: a numeric header waits the header value
in seconds clamped below at 1s; an absent header reads as
`Number(null) = 0`, which is finite, so it waits the constant 1s clamp
rather than the claim's exponential backoff; only a present but non-numeric
header (`NaN`) reaches the exponential `1s·2^(attempt-1)` capped-at-30s
fallback; every other non-success status raises a permanent error
immediately, carrying the response body, except the first 401 in refresh
mode, an allowed 409 not-found (returned as a success no-op) and an allowed
409 cursor reset (the distinguished cursor-reset signal). -/
theorem c4_fetchWithRetry_amended :
    (∀ aNF aCR script, (fetchWithRetry false aNF aCR script).fetches ≤ 6) ∧
    (∀ hR aNF aCR script, (fetchWithRetry hR aNF aCR script).fetches ≤ 7) ∧
    (∀ hR aNF aCR refreshed rest,
      fetchLoop hR aNF aCR 6 refreshed (FetchOutcome.netError :: rest) =
        ⟨.unreachable, 1, []⟩) ∧
    (∀ hR aNF aCR script, 6 ≤ script.length →
      (∀ o ∈ script, o = FetchOutcome.netError) →
      fetchWithRetry hR aNF aCR script =
        ⟨.unreachable, 6, [1000, 2000, 4000, 8000, 16000]⟩) ∧
    (∀ hR aNF aCR b bok n refreshed, n ≤ 5 →
      fetchLoop hR aNF aCR 1 refreshed
        (List.replicate n (FetchOutcome.resp 500 b .absent) ++
          [FetchOutcome.resp 200 bok .absent]) =
        ⟨.success 200 bok, n + 1, List.replicate n 1000⟩) ∧
    (∀ hR aNF aCR attempt refreshed status body hd rest,
      isOkStatus status = false → isTransientStatus status = false →
      ¬ status = 401 → ¬ status = 409 →
      fetchLoop hR aNF aCR attempt refreshed (FetchOutcome.resp status body hd :: rest) =
        ⟨.permanentError status body, 1, []⟩) ∧
    (∀ aNF aCR attempt b hd rest,
      fetchLoop true aNF aCR attempt false (FetchOutcome.resp 401 b hd :: rest) =
        ⟨(fetchLoop true aNF aCR attempt true rest).result,
         (fetchLoop true aNF aCR attempt true rest).fetches + 1,
         (fetchLoop true aNF aCR attempt true rest).delays⟩) ∧
    (∀ hR aCR attempt refreshed body hd rest, bodyHasNotFound body = true →
      fetchLoop hR true aCR attempt refreshed (FetchOutcome.resp 409 body hd :: rest) =
        ⟨.success 409 body, 1, []⟩) ∧
    (∀ hR attempt refreshed body hd rest, isCursorResetResponse body = true →
      bodyHasNotFound body = false →
      fetchLoop hR true true attempt refreshed (FetchOutcome.resp 409 body hd :: rest) =
        ⟨.cursorReset, 1, []⟩) ∧
    (∀ hR aNF aCR attempt refreshed status body hd rest,
      isTransientStatus status = true → ¬ attempt = 6 →
      fetchLoop hR aNF aCR attempt refreshed (FetchOutcome.resp status body hd :: rest) =
        ⟨(fetchLoop hR aNF aCR (attempt + 1) refreshed rest).result,
         (fetchLoop hR aNF aCR (attempt + 1) refreshed rest).fetches + 1,
         getRetryDelayMs hd attempt ::
           (fetchLoop hR aNF aCR (attempt + 1) refreshed rest).delays⟩) ∧
    (∀ attempt : Nat, getRetryDelayMs .absent attempt = 1000) ∧
    (∀ v : Int, ∀ attempt : Nat,
      getRetryDelayMs (.numeric v) attempt = max 1000 (v * 1000)) ∧
    (∀ attempt : Nat,
      getRetryDelayMs .nonNumeric attempt = min (1000 * 2 ^ (attempt - 1)) 30000) := by
  refine ⟨?_, ?_, ?_, ?_, ?_, ?_, ?_, ?_, ?_, ?_, ?_, ?_, ?_⟩
  · intro aNF aCR script
    have h := fetchLoop_fetches_le false aNF aCR script 1 false (by omega)
    rw [if_neg (by rintro ⟨h, _⟩; exact absurd h (by decide))] at h
    unfold fetchWithRetry
    exact le_trans h (by omega)
  · intro hR aNF aCR script
    have h := fetchLoop_fetches_le hR aNF aCR script 1 false (by omega)
    unfold fetchWithRetry
    revert h
    split <;> (intro h; omega)
  · intro hR aNF aCR refreshed rest
    simp only [fetchLoop]
    simp
  · exact fun hR aNF aCR script hlen hall => fetchLoop_allNet hR aNF aCR script hlen hall
  · intro hR aNF aCR b bok n refreshed hn
    exact fetchLoop_http_const_delay hR aNF aCR b bok n 1 refreshed (by omega)
  · intro hR aNF aCR attempt refreshed status body hd rest hok htr h401 h409
    exact fetchLoop_permanent_step hR aNF aCR attempt refreshed status body hd rest
      hok htr h401 h409
  · intro aNF aCR attempt b hd rest
    exact fetchLoop_refresh_step aNF aCR attempt b hd rest
  · intro hR aCR attempt refreshed body hd rest hb
    exact fetchLoop_notFound_step hR aCR attempt refreshed body hd rest hb
  · intro hR attempt refreshed body hd rest hb hnf
    exact fetchLoop_cursorReset_step hR attempt refreshed body hd rest hb hnf
  · intro hR aNF aCR attempt refreshed status body hd rest htr ha
    exact fetchLoop_transient_step hR aNF aCR attempt refreshed status body hd rest htr ha
  · intro attempt
    show (max 1000 0 : Int) = 1000
    decide
  · intro v attempt
    rfl
  · intro attempt
    rfl

theorem c4_witness :
    (fetchWithRetry false false false [FetchOutcome.resp 503 [] .absent]).fetches ≤ 6 ∧
    fetchWithRetry true false false
      (List.replicate 6 FetchOutcome.netError) =
      ⟨.unreachable, 6, [1000, 2000, 4000, 8000, 16000]⟩ ∧
    fetchLoop false false false 2 false
      (FetchOutcome.resp 404 "err body".toList .absent :: []) =
      ⟨.permanentError 404 "err body".toList, 1, []⟩ :=
  ⟨c4_fetchWithRetry_amended.1 false false [FetchOutcome.resp 503 [] .absent],
   c4_fetchWithRetry_amended.2.2.2.1 true false false
     (List.replicate 6 FetchOutcome.netError) (by decide) (by decide),
   c4_fetchWithRetry_amended.2.2.2.2.2.1 false false false 2 false 404
     "err body".toList .absent [] (by decide) (by decide) (by decide) (by decide)⟩

/-! ## Claim C6: cursor-reset recovery in `listDelta` -/

/-- C6 counterexample: the recovery happens only once.  If the fresh full
listing itself reports a reset while draining its pages, the
`DropboxCursorResetError` escapes `listDelta` to the caller, contradicting
"the reset condition is never surfaced to the caller as an error". -/
theorem c6_counterexample :
    listDelta (some "c0".toList)
      [ListCallResp.reset, ListCallResp.page [] "c1".toList true, ListCallResp.reset] =
      .error .cursorReset := rfl

/-- C6 (amended): when the stored cursor is reported invalid, `listDelta`
performs exactly one fresh full listing on the remaining interaction and
the caller observes only that listing's entries and brand-new cursor; a
successful `listDelta` is either a direct success or such a recovery; the
reset error reaches the caller only when the recovery listing itself hits a
reset while draining pages. -/
theorem c6_listDelta_cursor_reset_recovery :
    (∀ (cursor : List Char) script rest r,
      listDeltaInternal (some cursor) script = (.error .cursorReset, rest) →
      (listDeltaInternal none rest).1 = .ok r →
      listDelta (some cursor) script = .ok r) ∧
    (∀ (cursor : List Char) script r,
      listDelta (some cursor) script = .ok r →
      (listDeltaInternal (some cursor) script).1 = .ok r ∨
      ∃ rest, listDeltaInternal (some cursor) script = (.error .cursorReset, rest) ∧
        (listDeltaInternal none rest).1 = .ok r) ∧
    (∀ (cursor : List Char) script,
      listDelta (some cursor) script = .error .cursorReset →
      ∃ rest, listDeltaInternal (some cursor) script = (.error .cursorReset, rest) ∧
        (listDeltaInternal none rest).1 = .error .cursorReset) := by
  refine ⟨?_, ?_, ?_⟩
  · intro cursor script rest r h1 h2
    unfold listDelta
    rw [h1]
    exact h2
  · intro cursor script r h
    unfold listDelta at h
    rcases hi : listDeltaInternal (some cursor) script with ⟨res, rest⟩
    rw [hi] at h
    cases res with
    | ok v =>
      left
      exact h
    | error e =>
      cases e with
      | cursorReset =>
        right
        exact ⟨rest, rfl, h⟩
      | failed => simp at h
  · intro cursor script h
    unfold listDelta at h
    rcases hi : listDeltaInternal (some cursor) script with ⟨res, rest⟩
    rw [hi] at h
    cases res with
    | ok v => simp at h
    | error e =>
      cases e with
      | cursorReset => exact ⟨rest, rfl, h⟩
      | failed => simp at h

theorem c6_witness :
    listDelta (some "c0".toList)
      [ListCallResp.reset,
       ListCallResp.page [] "c1".toList true,
       ListCallResp.page [] "c2".toList false] =
      .ok ([], "c2".toList) :=
  c6_listDelta_cursor_reset_recovery.1 "c0".toList
    [ListCallResp.reset, ListCallResp.page [] "c1".toList true,
     ListCallResp.page [] "c2".toList false]
    [ListCallResp.page [] "c1".toList true, ListCallResp.page [] "c2".toList false]
    ([], "c2".toList) (by rfl) (by rfl)

/-! ## Claim C5: run coalescing -/
theorem schedInv_step (s : SchedState) (ev : SchedEvent) (h : schedInv s) :
    schedInv (schedStep s ev) := by
  obtain ⟨h1, h2, h3⟩ := h
  cases ev with
  | trigger =>
    simp only [schedStep]
    split
    · next hr =>
      refine ⟨fun _ => h1 hr, fun hf => ?_, fun _ => hr⟩
      have hf2 : s.running = false := hf
      rw [hr] at hf2
      exact absurd hf2 (by decide)
    · next hr =>
      have hf : s.running = false := Bool.eq_false_iff.mpr hr
      refine ⟨fun _ => ?_, fun hc => absurd hc (by simp), fun _ => rfl⟩
      show s.startedPasses + 1 = s.finishedPasses + 1
      rw [h2 hf]
  | passEnd =>
    simp only [schedStep]
    split
    · exact ⟨h1, h2, h3⟩
    · next hnr =>
      have hrt : s.running = true := not_not.mp hnr
      split
      · next hreq =>
        refine ⟨fun _ => ?_, fun hf => ?_, fun hc => absurd hc (by simp)⟩
        · show s.startedPasses + 1 = s.finishedPasses + 1 + 1
          have := h1 hrt
          omega
        · have hf2 : s.running = false := hf
          rw [hrt] at hf2
          exact absurd hf2 (by decide)
      · next hreq =>
        refine ⟨fun hc => absurd hc (by simp), fun _ => ?_, fun hrr => absurd hrr hreq⟩
        show s.startedPasses = s.finishedPasses + 1
        exact h1 hrt

theorem schedRun_inv (evs : List SchedEvent) : schedInv (schedRun evs) := by
  suffices h : ∀ s, schedInv s → schedInv (evs.foldl schedStep s) by
    refine h schedInit ?_
    refine ⟨fun hc => absurd hc (by decide), fun _ => rfl, fun hc => absurd hc (by decide)⟩
  induction evs with
  | nil => exact fun s hs => hs
  | cons e t ih => exact fun s hs => ih (schedStep s e) (schedInv_step s e hs)

/-- C5 (confirmed): for every event sequence the scheduler invariant holds,
so at most one pass is ever in flight (`startedPasses ≤ finishedPasses + 1`
with equality exactly while running); a trigger arriving while a run is in
progress starts no second pass and only marks the re-run flag; and at the
end of a pass a marked re-run flag immediately starts exactly one more pass
and clears the flag, so the trigger is not lost. -/
theorem c5_scheduler_coalesces_runs :
    (∀ evs, schedInv (schedRun evs) ∧
      (schedRun evs).startedPasses ≤ (schedRun evs).finishedPasses + 1) ∧
    (∀ s, s.running = true →
      (schedStep s .trigger).startedPasses = s.startedPasses ∧
      (schedStep s .trigger).running = s.running ∧
      (schedStep s .trigger).rerunRequested = true) ∧
    (∀ s, s.running = true → s.rerunRequested = true →
      (schedStep s .passEnd).startedPasses = s.startedPasses + 1 ∧
      (schedStep s .passEnd).running = true ∧
      (schedStep s .passEnd).rerunRequested = false) := by
  refine ⟨?_, ?_, ?_⟩
  · intro evs
    have h := schedRun_inv evs
    refine ⟨h, ?_⟩
    obtain ⟨h1, h2, _⟩ := h
    cases hb : (schedRun evs).running with
    | true => rw [h1 hb]
    | false => rw [h2 hb]; omega
  · intro s hr
    simp only [schedStep]
    rw [if_pos hr]
    exact ⟨rfl, rfl, rfl⟩
  · intro s hr hq
    simp only [schedStep]
    rw [if_neg (by rw [hr]; exact not_not_intro rfl)]
    rw [if_pos hq]
    exact ⟨rfl, hr, rfl⟩

theorem c5_witness :
    schedInv (schedRun [SchedEvent.trigger, SchedEvent.trigger, SchedEvent.passEnd,
      SchedEvent.passEnd]) ∧
    (schedStep ⟨true, false, 3, 2⟩ .trigger).startedPasses = 3 ∧
    (schedStep ⟨true, true, 3, 2⟩ .passEnd).startedPasses = 4 :=
  ⟨(c5_scheduler_coalesces_runs.1 [SchedEvent.trigger, SchedEvent.trigger,
      SchedEvent.passEnd, SchedEvent.passEnd]).1,
   (c5_scheduler_coalesces_runs.2.1 ⟨true, false, 3, 2⟩ rfl).1,
   (c5_scheduler_coalesces_runs.2.2 ⟨true, true, 3, 2⟩ rfl rfl).1⟩

/-! ## Claim C3: the persist step of `syncOnce` -/

/-- C3 (confirmed): whenever a pass actually starts (not paused, settings
configured), `syncOnce` persists a snapshot of the state store equal to the
in-memory state at the end of the pass, also when pull or push raised; a
pull failure prevents the push stage from starting but not the persist
step. -/
theorem c3_syncOnce_persists_even_on_failure
    (isConfigured : Bool)
    (pull pushStage : SyncStateData → SyncStateData × Bool)
    (st : SyncStateData) (persisted0 : Option SyncStateData)
    (hconf : isConfigured = true) :
    (syncOnce false isConfigured pull pushStage st persisted0).saved = true ∧
    (syncOnce false isConfigured pull pushStage st persisted0).persisted =
      some (syncOnce false isConfigured pull pushStage st persisted0).state ∧
    ((pull st).2 = false →
      (syncOnce false isConfigured pull pushStage st persisted0).pushAttempted = false ∧
      (syncOnce false isConfigured pull pushStage st persisted0).state = (pull st).1 ∧
      (syncOnce false isConfigured pull pushStage st persisted0).raised = true) ∧
    ((pull st).2 = true →
      (syncOnce false isConfigured pull pushStage st persisted0).pushAttempted = true ∧
      (syncOnce false isConfigured pull pushStage st persisted0).state =
        (pushStage (pull st).1).1) := by
  subst hconf
  rcases hpl : pull st with ⟨s1, ok⟩
  cases ok <;> simp [syncOnce, hpl]

theorem c3_witness :
    (syncOnce false true (fun s => (s, false)) (fun s => (s, true))
      ⟨none, []⟩ none).saved = true ∧
    (syncOnce false true (fun s => (s, false)) (fun s => (s, true))
      ⟨none, []⟩ none).persisted =
      some (syncOnce false true (fun s => (s, false)) (fun s => (s, true))
        ⟨none, []⟩ none).state ∧
    (syncOnce false true (fun s => (s, false)) (fun s => (s, true))
      ⟨none, []⟩ none).pushAttempted = false := by
  have h := c3_syncOnce_persists_even_on_failure true
    (fun s => (s, false)) (fun s => (s, true)) ⟨none, []⟩ none rfl
  exact ⟨h.1, h.2.1, (h.2.2.1 rfl).1⟩

/-! ## Lookup lemmas for the store and vault association lists -/
theorem find?_map_set_key {β : Type} (l : List (List Char × β)) (k : List Char) (v : β)
    (hany : (l.any fun e => e.1 = k) = true) :
    ((l.map fun e => if e.1 = k then (k, v) else e).find? fun e => e.1 = k) =
      some (k, v) := by
  induction l with
  | nil => simp at hany
  | cons e t ih =>
    rw [List.map_cons]
    by_cases he : e.1 = k
    · rw [if_pos he, List.find?_cons_of_pos _ (by simp)]
    · rw [if_neg he, List.find?_cons_of_neg _ (by simp [he])]
      apply ih
      rw [List.any_cons, Bool.or_eq_true] at hany
      rcases hany with h | h
      · exact absurd (by simpa using h) he
      · exact h

theorem find?_append_key {β : Type} (l : List (List Char × β)) (k : List Char) (v : β)
    (hall : (l.any fun e => e.1 = k) = false) :
    ((l ++ [(k, v)]).find? fun e => e.1 = k) = some (k, v) := by
  induction l with
  | nil =>
    rw [List.nil_append, List.find?_cons_of_pos _ (by simp)]
  | cons e t ih =>
    rw [List.any_cons, Bool.or_eq_false_iff] at hall
    rw [List.cons_append, List.find?_cons_of_neg _ (by simp; simpa using hall.1)]
    exact ih hall.2

theorem find?_map_set_other {β : Type} (l : List (List Char × β)) (k j : List Char)
    (v : β) (hjk : ¬ j = k) :
    ((l.map fun e => if e.1 = k then (k, v) else e).find? fun e => e.1 = j) =
      l.find? fun e => e.1 = j := by
  induction l with
  | nil => rfl
  | cons e t ih =>
    rw [List.map_cons]
    by_cases he : e.1 = k
    · rw [if_pos he]
      rw [List.find?_cons_of_neg _ (by simp; exact fun h => hjk h.symm)]
      rw [List.find?_cons_of_neg _ (by
        simp
        intro h
        rw [he] at h
        exact hjk h.symm)]
      exact ih
    · rw [if_neg he]
      by_cases hej : e.1 = j
      · rw [List.find?_cons_of_pos _ (by simp [hej]), List.find?_cons_of_pos _ (by simp [hej])]
      · rw [List.find?_cons_of_neg _ (by simp [hej]), List.find?_cons_of_neg _ (by simp [hej])]
        exact ih

theorem find?_append_other {β : Type} (l : List (List Char × β)) (k j : List Char)
    (v : β) (hjk : ¬ j = k) :
    ((l ++ [(k, v)]).find? fun e => e.1 = j) = l.find? fun e => e.1 = j := by
  induction l with
  | nil =>
    rw [List.nil_append, List.find?_cons_of_neg _ (by simp; exact fun h => hjk h.symm)]
  | cons e t ih =>
    by_cases hej : e.1 = j
    · rw [List.cons_append, List.find?_cons_of_pos _ (by simp [hej]),
        List.find?_cons_of_pos _ (by simp [hej])]
    · rw [List.cons_append, List.find?_cons_of_neg _ (by simp [hej]),
        List.find?_cons_of_neg _ (by simp [hej])]
      exact ih

theorem find?_filter_other {β : Type} (l : List (List Char × β)) (k j : List Char)
    (hjk : ¬ j = k) :
    ((l.filter fun e => ¬ e.1 = k).find? fun e => e.1 = j) =
      l.find? fun e => e.1 = j := by
  induction l with
  | nil => rfl
  | cons e t ih =>
    by_cases he : e.1 = k
    · rw [List.filter_cons_of_neg (by simp [he])]
      rw [List.find?_cons_of_neg _ (by
        simp
        intro h
        rw [h] at he
        exact hjk he)]
      exact ih
    · rw [List.filter_cons_of_pos (by simp [he])]
      by_cases hej : e.1 = j
      · rw [List.find?_cons_of_pos _ (by simp [hej]), List.find?_cons_of_pos _ (by simp [hej])]
      · rw [List.find?_cons_of_neg _ (by simp [hej]), List.find?_cons_of_neg _ (by simp [hej])]
        exact ih

theorem storeGet_storeSet_self (st : Store) (p q : List Char) (v : FileSyncState)
    (h : normalizeLocalPath p = normalizeLocalPath q) :
    storeGet (storeSet st q v) p = some v := by
  unfold storeGet storeSet
  rw [h]
  by_cases hany : (st.any fun e => e.1 = normalizeLocalPath q) = true
  · rw [if_pos hany, find?_map_set_key st _ v hany]
    rfl
  · rw [if_neg hany, find?_append_key st _ v (Bool.eq_false_iff.mpr hany)]
    rfl

theorem storeGet_storeSet_other (st : Store) (p q : List Char) (v : FileSyncState)
    (h : ¬ normalizeLocalPath p = normalizeLocalPath q) :
    storeGet (storeSet st q v) p = storeGet st p := by
  unfold storeGet storeSet
  by_cases hany : (st.any fun e => e.1 = normalizeLocalPath q) = true
  · rw [if_pos hany, find?_map_set_other st _ _ v h]
  · rw [if_neg hany, find?_append_other st _ _ v h]

theorem storeGet_storeDelete_other (st : Store) (p q : List Char)
    (h : ¬ normalizeLocalPath p = normalizeLocalPath q) :
    storeGet (storeDelete st q) p = storeGet st p := by
  unfold storeGet storeDelete
  rw [find?_filter_other st _ _ h]

theorem vaultFindRaw_set_self (v : Vault) (k : List Char) (f : LocalFile) :
    vaultFindRaw (vaultSetRaw v k f) k = some f := by
  unfold vaultFindRaw vaultSetRaw
  by_cases hany : (v.any fun e => e.1 = k) = true
  · rw [if_pos hany, find?_map_set_key v k f hany]
    rfl
  · rw [if_neg hany, find?_append_key v k f (Bool.eq_false_iff.mpr hany)]
    rfl

theorem vaultFindRaw_set_other (v : Vault) (k j : List Char) (f : LocalFile)
    (h : ¬ j = k) :
    vaultFindRaw (vaultSetRaw v k f) j = vaultFindRaw v j := by
  unfold vaultFindRaw vaultSetRaw
  by_cases hany : (v.any fun e => e.1 = k) = true
  · rw [if_pos hany, find?_map_set_other v k j f h]
  · rw [if_neg hany, find?_append_other v k j f h]

/-! ## Push-loop lemmas for the oversized-skip claim -/
theorem getLocalFile_congr (v : Vault) {p q : List Char}
    (h : normalizeLocalPath p = normalizeLocalPath q) :
    getLocalFile v p = getLocalFile v q := by
  unfold getLocalFile
  rw [h]

theorem isConflictCopyPath_congr {p q : List Char}
    (h : normalizeLocalPath p = normalizeLocalPath q) :
    isConflictCopyPath p = isConflictCopyPath q := by
  unfold isConflictCopyPath
  rw [h]

theorem storeGet_congr (st : Store) {p q : List Char}
    (h : normalizeLocalPath p = normalizeLocalPath q) :
    storeGet st p = storeGet st q := by
  unfold storeGet
  rw [h]

/-- The cleanup loop never touches the store entry of a path that is still
present in the vault, is not a conflict copy, and is in the tagged scope. -/
theorem pushCleanupLoop_preserves (v : Vault) (tagged : List (List Char))
    (p : List Char) (f : LocalFile) (hfile : getLocalFile v p = some f)
    (hcc : isConflictCopyPath p = false)
    (hmem : (tagged.any fun q => q = p) = true)
    (hnp : normalizeLocalPath p = p) :
    ∀ snapshot st, (∀ e ∈ snapshot, normalizeLocalPath e.1 = e.1) →
      storeGet (pushCleanupLoop v tagged snapshot st).1 p = storeGet st p := by
  intro snapshot
  induction snapshot with
  | nil => intro st _; rfl
  | cons e rest ih =>
    intro st hwf
    rcases e with ⟨q, qst⟩
    have hq : normalizeLocalPath q = q := hwf (q, qst) (by simp)
    have hrest : ∀ e ∈ rest, normalizeLocalPath e.1 = e.1 :=
      fun x hx => hwf x (by simp [hx])
    rcases hg : getLocalFile v q with _ | lf
    · have hne : ¬ normalizeLocalPath p = normalizeLocalPath q := by
        intro he
        rw [getLocalFile_congr v he, hg] at hfile
        exact Option.noConfusion hfile
      simp only [pushCleanupLoop, hg]
      rw [ih (storeDelete st q) hrest, storeGet_storeDelete_other st p q hne]
    · by_cases hcq : isConflictCopyPath q = true
      · have hne : ¬ normalizeLocalPath p = normalizeLocalPath q := by
          intro he
          rw [isConflictCopyPath_congr he, hcq] at hcc
          exact Bool.noConfusion hcc
        simp only [pushCleanupLoop, hg, if_pos hcq]
        rw [ih (storeDelete st q) hrest, storeGet_storeDelete_other st p q hne]
      · by_cases htq : (tagged.any fun x => x = q) = true
        · simp only [pushCleanupLoop, hg, if_neg hcq]
          rw [if_neg (fun h => h htq)]
          exact ih st hrest
        · have hne : ¬ normalizeLocalPath p = normalizeLocalPath q := by
            intro he
            rw [hnp, hq] at he
            rw [he] at hmem
            exact htq hmem
          simp only [pushCleanupLoop, hg, if_neg hcq]
          rw [if_pos htq]
          split
          · rw [ih (storeDelete st q) hrest, storeGet_storeDelete_other st p q hne]
          · exact ih st hrest

/-- The upload loop processes a concatenation of work lists sequentially. -/
theorem pushUploadLoop_append (s : EngineSettings) (o : PushOracle) (v : Vault)
    (force : Bool) :
    ∀ l1 l2 : List (List Char), ∀ st : Store,
      pushUploadLoop s o v force (l1 ++ l2) st =
        ⟨(pushUploadLoop s o v force l2 (pushUploadLoop s o v force l1 st).1).1,
         (pushUploadLoop s o v force l1 st).2 ++
           (pushUploadLoop s o v force l2 (pushUploadLoop s o v force l1 st).1).2⟩ := by
  intro l1
  induction l1 with
  | nil => intro l2 st; simp [pushUploadLoop]
  | cons q rest ih =>
    intro l2 st
    rw [List.cons_append]
    rcases hg : getLocalFile v q with _ | lf
    · simp only [pushUploadLoop, hg]
      exact ih l2 st
    · simp only [pushUploadLoop, hg]
      split
      · exact ih l2 st
      · split
        · exact ih l2 _
        · rw [ih l2 _]
          simp

/-- The upload loop neither touches the store entry of, nor emits an upload
for, a path that is key-distinct from every element of its work list. -/
theorem pushUploadLoop_preserves (s : EngineSettings) (o : PushOracle) (v : Vault)
    (force : Bool) (p : List Char) :
    ∀ l : List (List Char),
      (∀ q ∈ l, ¬ normalizeLocalPath p = normalizeLocalPath q) →
      ∀ st : Store,
        storeGet (pushUploadLoop s o v force l st).1 p = storeGet st p ∧
        ∀ u ∈ (pushUploadLoop s o v force l st).2, ¬ u.localPath = p := by
  intro l
  induction l with
  | nil =>
    intro _ st
    exact ⟨rfl, by intro u hu; simp [pushUploadLoop] at hu⟩
  | cons q rest ih =>
    intro hnot st
    have hq : ¬ normalizeLocalPath p = normalizeLocalPath q := hnot q (by simp)
    have hrest : ∀ x ∈ rest, ¬ normalizeLocalPath p = normalizeLocalPath x :=
      fun x hx => hnot x (by simp [hx])
    rcases hg : getLocalFile v q with _ | lf
    · simp only [pushUploadLoop, hg]
      exact ih hrest st
    · simp only [pushUploadLoop, hg]
      split
      · exact ih hrest st
      · split
        · rcases ih hrest (storeSet st q
            ⟨(storeGet st q).bind FileSyncState.dropboxRev, some lf.mtime,
             (storeGet st q).bind FileSyncState.lastRemoteModified⟩) with ⟨h1, h2⟩
          exact ⟨by rw [h1, storeGet_storeSet_other st p q _ hq], h2⟩
        · rcases ih hrest (storeSet st q
            ⟨some (o.upload q).rev, some lf.mtime,
             some (o.upload q).serverModified⟩) with ⟨h1, h2⟩
          refine ⟨by rw [h1, storeGet_storeSet_other st p q _ hq], ?_⟩
          intro u hu
          rw [List.mem_cons] at hu
          rcases hu with hu | hu
          · rw [hu]
            intro he
            have hqp : q = p := he
            exact hq (by rw [hqp])
          · exact h2 u hu

/-- Head step of the upload loop at an oversized file: no upload is emitted
for it, and its store entry keeps its revision fields while `lastLocalMtime`
advances to the file's mtime. -/
theorem pushUploadLoop_cons_oversized (s : EngineSettings) (o : PushOracle)
    (v : Vault) (force : Bool) (p : List Char) (f : LocalFile)
    (l2 : List (List Char)) (st2 : Store)
    (hK2 : ∀ q ∈ l2, ¬ normalizeLocalPath p = normalizeLocalPath q)
    (hfile : getLocalFile v p = some f)
    (hsize : f.size > s.maxUploadSizeMB * 1024 * 1024) :
    storeGet (pushUploadLoop s o v force (p :: l2) st2).1 p =
      some ⟨(storeGet st2 p).bind FileSyncState.dropboxRev, some f.mtime,
            (storeGet st2 p).bind FileSyncState.lastRemoteModified⟩ ∧
    ∀ u ∈ (pushUploadLoop s o v force (p :: l2) st2).2, ¬ u.localPath = p := by
  rcases hex : storeGet st2 p with _ | ⟨r, m, lm⟩
  · simp only [pushUploadLoop, hfile, hex]
    rw [if_neg (by simp), if_pos hsize]
    rcases pushUploadLoop_preserves s o v force p l2 hK2
        (storeSet st2 p ⟨(none : Option FileSyncState).bind FileSyncState.dropboxRev,
          some f.mtime,
          (none : Option FileSyncState).bind FileSyncState.lastRemoteModified⟩)
      with ⟨h1, h2⟩
    exact ⟨h1.trans (storeGet_storeSet_self st2 p p _ rfl), h2⟩
  · simp only [pushUploadLoop, hfile, hex]
    by_cases hu : (!force && decide ((⟨r, m, lm⟩ : FileSyncState).lastLocalMtime =
        some f.mtime)) = true
    · rw [if_pos hu]
      rcases pushUploadLoop_preserves s o v force p l2 hK2 st2 with ⟨h1, h2⟩
      have hm2 : m = some f.mtime := by
        simp at hu
        exact hu.2
      refine ⟨h1.trans ?_, h2⟩
      rw [hex, hm2]
      rfl
    · rw [if_neg hu, if_pos hsize]
      rcases pushUploadLoop_preserves s o v force p l2 hK2
          (storeSet st2 p ⟨(some (⟨r, m, lm⟩ : FileSyncState)).bind FileSyncState.dropboxRev,
            some f.mtime,
            (some (⟨r, m, lm⟩ : FileSyncState)).bind FileSyncState.lastRemoteModified⟩)
        with ⟨h1, h2⟩
      exact ⟨h1.trans (storeGet_storeSet_self st2 p p _ rfl), h2⟩

/-- C9: during a push pass (`pushLocalChanges`), an in-scope tagged file whose
size exceeds the configured maximum upload size produces no upload call, and
its recorded state ends the pass with `lastLocalMtime` advanced to the file's
current modification time while the stored remote revision and last remote
modification time are exactly what they were before the pass. -/
theorem c9_oversized_skip_advances_mtime_only
    (s : EngineSettings) (o : PushOracle) (v : Vault)
    (taggedFiles : List (List Char)) (force : Bool) (st : Store)
    (p : List Char) (f : LocalFile)
    (htag : p ∈ taggedFiles) (hnod : taggedFiles.Nodup)
    (htgn : ∀ q ∈ taggedFiles, normalizeLocalPath q = q)
    (hwf : ∀ e ∈ st, normalizeLocalPath e.1 = e.1)
    (hcc : isConflictCopyPath p = false)
    (hfile : getLocalFile v p = some f)
    (hsize : f.size > s.maxUploadSizeMB * 1024 * 1024) :
    storeGet (pushLocalChanges s o v taggedFiles force st).store p =
      some ⟨(storeGet st p).bind FileSyncState.dropboxRev, some f.mtime,
            (storeGet st p).bind FileSyncState.lastRemoteModified⟩ ∧
    ∀ u ∈ (pushLocalChanges s o v taggedFiles force st).uploads,
      ¬ u.localPath = p := by
  have hnp : normalizeLocalPath p = p := htgn p htag
  have hmem : (taggedFiles.any fun q => q = p) = true :=
    List.any_eq_true.mpr ⟨p, htag, by simp⟩
  obtain ⟨l1, l2, hsplit⟩ := List.append_of_mem htag
  subst hsplit
  have hnodup2 : (p :: (l1 ++ l2)).Nodup := List.nodup_middle.mp hnod
  have hpnot : p ∉ l1 ++ l2 := (List.nodup_cons.mp hnodup2).1
  have hpl1 : p ∉ l1 := fun h => hpnot (List.mem_append_left _ h)
  have hpl2 : p ∉ l2 := fun h => hpnot (List.mem_append_right _ h)
  have hK1 : ∀ q ∈ l1, ¬ normalizeLocalPath p = normalizeLocalPath q := by
    intro q hq he
    rw [hnp, htgn q (List.mem_append_left _ hq)] at he
    exact hpl1 (by rw [he]; exact hq)
  have hK2 : ∀ q ∈ l2, ¬ normalizeLocalPath p = normalizeLocalPath q := by
    intro q hq he
    rw [hnp, htgn q (List.mem_append_right _ (List.mem_cons_of_mem _ hq))] at he
    exact hpl2 (by rw [he]; exact hq)
  have hclean : storeGet (pushCleanupLoop v (l1 ++ p :: l2) st st).1 p = storeGet st p :=
    pushCleanupLoop_preserves v (l1 ++ p :: l2) p f hfile hcc hmem hnp st st hwf
  rcases pushUploadLoop_preserves s o v force p l1 hK1
      (pushCleanupLoop v (l1 ++ p :: l2) st st).1 with ⟨hA1, hA2⟩
  rcases pushUploadLoop_cons_oversized s o v force p f l2
      (pushUploadLoop s o v force l1 (pushCleanupLoop v (l1 ++ p :: l2) st st).1).1
      hK2 hfile hsize with ⟨hB1, hB2⟩
  have happ := pushUploadLoop_append s o v force l1 (p :: l2)
    (pushCleanupLoop v (l1 ++ p :: l2) st st).1
  constructor
  · have h1 : storeGet (pushUploadLoop s o v force (l1 ++ p :: l2)
        (pushCleanupLoop v (l1 ++ p :: l2) st st).1).1 p =
        some ⟨(storeGet st p).bind FileSyncState.dropboxRev, some f.mtime,
              (storeGet st p).bind FileSyncState.lastRemoteModified⟩ := by
      rw [happ]
      exact hB1.trans (by rw [hA1, hclean])
    exact h1
  · intro u hu
    have hu2 : u ∈ (pushUploadLoop s o v force l1
          (pushCleanupLoop v (l1 ++ p :: l2) st st).1).2 ++
        (pushUploadLoop s o v force (p :: l2)
          (pushUploadLoop s o v force l1
            (pushCleanupLoop v (l1 ++ p :: l2) st st).1).1).2 := by
      have he : (pushLocalChanges s o v (l1 ++ p :: l2) force st).uploads =
          (pushUploadLoop s o v force (l1 ++ p :: l2)
            (pushCleanupLoop v (l1 ++ p :: l2) st st).1).2 := rfl
      rw [he, happ] at hu
      exact hu
    rcases List.mem_append.mp hu2 with h | h
    · exact hA2 u h
    · exact hB2 u h

theorem c9_witness :
    storeGet (pushLocalChanges ⟨['/'], [], [], 0⟩ ⟨fun _ => ⟨[], 0⟩⟩
        [(['a'], ⟨['x'], 5, 1⟩)] [['a']] false []).store ['a'] =
      some ⟨none, some 5, none⟩ ∧
    ∀ u ∈ (pushLocalChanges ⟨['/'], [], [], 0⟩ ⟨fun _ => ⟨[], 0⟩⟩
        [(['a'], ⟨['x'], 5, 1⟩)] [['a']] false []).uploads,
      ¬ u.localPath = ['a'] := by
  have h := c9_oversized_skip_advances_mtime_only
    ⟨['/'], [], [], 0⟩ ⟨fun _ => ⟨[], 0⟩⟩ [(['a'], ⟨['x'], 5, 1⟩)]
    [['a']] false [] ['a'] ⟨['x'], 5, 1⟩
    (by decide) (by decide) (by decide) (by simp) (by decide) (by decide) (by decide)
  exact ⟨h.1, h.2⟩

/-! ## Shape of the conflict-copy paths built by `buildConflictPath` -/
theorem takeWhile_append_all {α : Type} (p : α → Bool) (a b : List α)
    (h : ∀ c ∈ a, p c = true) : (a ++ b).takeWhile p = a ++ b.takeWhile p := by
  induction a with
  | nil => rfl
  | cons c t ih =>
    rw [List.cons_append, List.takeWhile_cons_of_pos (h c (by simp)), List.cons_append,
      ih (fun x hx => h x (by simp [hx]))]

theorem dropWhile_append_all {α : Type} (p : α → Bool) (a b : List α)
    (h : ∀ c ∈ a, p c = true) : (a ++ b).dropWhile p = b.dropWhile p := by
  induction a with
  | nil => rfl
  | cons c t ih =>
    rw [List.cons_append, List.dropWhile_cons_of_pos (h c (by simp)),
      ih (fun x hx => h x (by simp [hx]))]

theorem digitChar_isDigit (k : Nat) : isDigitChar (digitChar k) = true := by
  unfold digitChar
  repeat' split
  all_goals decide

theorem natToCharsAux_digits :
    ∀ fuel n : Nat, ∀ acc : List Char, (∀ c ∈ acc, isDigitChar c = true) →
      ∀ c ∈ natToCharsAux fuel n acc, isDigitChar c = true := by
  intro fuel
  induction fuel with
  | zero => intro n acc hacc c hc; exact hacc c hc
  | succ m ih =>
    intro n acc hacc c hc
    simp only [natToCharsAux] at hc
    split at hc
    · rcases List.mem_cons.mp hc with h | h
      · rw [h]; exact digitChar_isDigit n
      · exact hacc c h
    · refine ih (n / 10) (digitChar (n % 10) :: acc) ?_ c hc
      intro x hx
      rcases List.mem_cons.mp hx with h | h
      · rw [h]; exact digitChar_isDigit (n % 10)
      · exact hacc x h

theorem natToChars_digits (n : Nat) : ∀ c ∈ natToChars n, isDigitChar c = true :=
  natToCharsAux_digits (n + 1) n [] (by simp)

theorem natToCharsAux_suffix :
    ∀ fuel n : Nat, ∀ acc : List Char, acc <:+ natToCharsAux fuel n acc := by
  intro fuel
  induction fuel with
  | zero => intro n acc; exact List.suffix_refl acc
  | succ m ih =>
    intro n acc
    simp only [natToCharsAux]
    split
    · exact List.suffix_cons (digitChar n) acc
    · exact ((List.suffix_cons (digitChar (n % 10)) acc).trans
        (ih (n / 10) (digitChar (n % 10) :: acc)))

theorem natToChars_ne_nil (n : Nat) : natToChars n ≠ [] := by
  unfold natToChars
  simp only [natToCharsAux]
  split
  · simp
  · intro he
    have := natToCharsAux_suffix n (n / 10) [digitChar (n % 10)]
    rw [he] at this
    exact absurd (List.suffix_nil.mp this) (by simp)

theorem pad2_digits (n : Nat) : ∀ c ∈ pad2 n, isDigitChar c = true := by
  intro c hc
  simp only [pad2] at hc
  split at hc
  · rcases List.mem_cons.mp hc with h | h
    · rw [h]; decide
    · exact natToChars_digits n c h
  · exact natToChars_digits n c hc

theorem isDigit_ne_rparen {c : Char} (h : isDigitChar c = true) : ¬ c = ')' := by
  intro he
  rw [he] at h
  exact absurd h (by decide)

theorem isDigit_ne_backslash {c : Char} (h : isDigitChar c = true) : ¬ c = '\\' := by
  intro he
  rw [he] at h
  exact absurd h (by decide)

theorem safeVaultIdChar_props (c : Char) :
    ¬ (if isSafeVaultIdChar c then c else '-') = ')' ∧
    ¬ (if isSafeVaultIdChar c then c else '-') = '\\' := by
  by_cases h : isSafeVaultIdChar c = true
  · rw [if_pos h]
    constructor
    · intro he; rw [he] at h; exact absurd h (by decide)
    · intro he; rw [he] at h; exact absurd h (by decide)
  · rw [if_neg h]
    exact ⟨by decide, by decide⟩

theorem conflictTailPat_md : conflictTailPat ".md".toList = true := by decide

theorem conflictTailPat_dash (j : Nat) :
    conflictTailPat ('-' :: (natToChars j ++ ".md".toList)) = true := by
  simp only [conflictTailPat]
  rw [Bool.or_eq_true]
  right
  have ht : (natToChars j ++ ".md".toList).takeWhile isDigitChar = natToChars j := by
    rw [takeWhile_append_all isDigitChar _ _ (natToChars_digits j),
      show ".md".toList.takeWhile isDigitChar = ([] : List Char) from rfl]
    exact List.append_nil _
  have hd : (natToChars j ++ ".md".toList).dropWhile isDigitChar = ".md".toList := by
    rw [dropWhile_append_all isDigitChar _ _ (natToChars_digits j)]
    rfl
  rw [Bool.and_eq_true, ht, hd]
  exact ⟨decide_eq_true (natToChars_ne_nil j), by decide⟩

/-- A string of the form `ws (conflict <inner>)<tail>` matches the conflict
suffix scanner whenever `inner` is nonempty and `)`-free and `tail` is an
admissible ending. -/
theorem conflictSuffix_shape (inner tail : List Char)
    (hin : ∀ c ∈ inner, ¬ c = ')') (hne : inner ≠ [])
    (htail : conflictTailPat tail = true) :
    conflictSuffix (' ' :: ("(conflict ".toList ++ (inner ++ ')' :: tail))) = true := by
  simp only [conflictSuffix]
  rw [Bool.and_eq_true]
  refine ⟨by decide, ?_⟩
  simp only [conflictAfterWs]
  rw [Bool.and_eq_true]
  constructor
  · unfold startsWithLower
    rw [List.take_left' (by decide)]
    decide
  · rw [@List.drop_left' _ "(conflict ".toList _ _ (by decide)]
    have hp : ∀ c ∈ inner, (fun c => decide (¬ c = ')')) c = true := by
      intro c hc
      exact decide_eq_true (hin c hc)
    rw [dropWhile_append_all _ inner (')' :: tail) hp,
      List.dropWhile_cons_of_neg (by simp)]
    rw [takeWhile_append_all _ inner (')' :: tail) hp,
      List.takeWhile_cons_of_neg (by simp)]
    rw [Bool.and_eq_true]
    refine ⟨decide_eq_true ?_, htail⟩
    simp [hne]

theorem tails_any_of_suffix (p : List Char → Bool) {s l : List Char}
    (hs : s <:+ l) (hp : p s = true) : l.tails.any p = true :=
  List.any_eq_true.mpr ⟨s, (List.mem_tails s l).mpr hs, hp⟩

/-- A whitespace-headed, backslash-free suffix survives local-path
normalization of any extension to the left. -/
theorem suffix_nlp_append (pre s : List Char)
    (hbs : '\\' ∉ s) (hh : s.head? = some ' ') :
    s <:+ normalizeLocalPath (pre ++ s) := by
  unfold normalizeLocalPath
  have hrb : replaceBackslash (pre ++ s) = replaceBackslash pre ++ s := by
    unfold replaceBackslash
    rw [List.map_append]
    congr 1
    exact replaceBackslash_eq_self hbs
  rw [hrb]
  unfold dropLeadingSlashes
  rcases s with _ | ⟨c, s0⟩
  · simp at hh
  · simp only [List.head?_cons, Option.some.injEq] at hh
    subst hh
    induction (replaceBackslash pre) with
    | nil =>
      rw [List.nil_append, List.dropWhile_cons_of_neg (by decide)]
    | cons d y ih =>
      by_cases hd : d = '/'
      · rw [List.cons_append, List.dropWhile_cons_of_pos (by simp [hd])]
        exact ih
      · rw [List.cons_append, List.dropWhile_cons_of_neg (by simp [hd])]
        exact (List.suffix_append y _).trans (List.suffix_cons d _)

theorem replaceMdSuffix_append_md (x : List Char) (j : Nat) :
    replaceMdSuffix (x ++ ".md".toList) j =
      x ++ '-' :: (natToChars j ++ ".md".toList) := by
  unfold replaceMdSuffix
  have hsuf : ".md".toList.isSuffixOf ((x ++ ".md".toList).map lowerChar) = true := by
    rw [List.isSuffixOf_iff_suffix, List.map_append]
    rw [show ".md".toList.map lowerChar = ".md".toList from rfl]
    exact List.suffix_append _ _
  rw [if_pos hsuf]
  congr 1
  have hlen : (x ++ ".md".toList).length - 3 = x.length := by
    rw [List.length_append]
    rfl
  rw [hlen, List.take_left]

theorem conflictFreeLoop_shape (v : Vault) (cp : List Char) :
    ∀ fuel : Nat, ∀ fp : List Char, ∀ k : Nat,
      (fp = cp ∨ ∃ j, fp = replaceMdSuffix cp j) →
      (conflictFreeLoop v cp fuel fp k = cp ∨
       ∃ j, conflictFreeLoop v cp fuel fp k = replaceMdSuffix cp j) := by
  intro fuel
  induction fuel with
  | zero => intro fp k h; exact h
  | succ m ih =>
    intro fp k h
    simp only [conflictFreeLoop]
    split
    · exact ih (replaceMdSuffix cp k) (k + 1) (Or.inr ⟨k, rfl⟩)
    · exact h

theorem nlp_idem (p : List Char) :
    normalizeLocalPath (normalizeLocalPath p) = normalizeLocalPath p := by
  conv_lhs => rw [normalizeLocalPath]
  have h1 : replaceBackslash (normalizeLocalPath p) = normalizeLocalPath p := by
    refine replaceBackslash_eq_self ?_
    intro hm
    unfold normalizeLocalPath dropLeadingSlashes at hm
    have := (List.dropWhile_suffix (fun c => c = '/')).subset hm
    exact absurd rfl (mem_replaceBackslash this)
  rw [h1]
  unfold dropLeadingSlashes
  refine dropWhile_eq_self_of_head _ _ ?_
  intro c hc
  unfold normalizeLocalPath dropLeadingSlashes at hc
  exact dropWhile_head?_not _ _ c hc

theorem timestamp_chars (now : DateParts) :
    ∀ c ∈ natToChars now.year ++ '-' :: (pad2 (now.monthIndex + 1) ++
      '-' :: (pad2 now.day ++ '_' :: (pad2 now.hour ++ '-' :: pad2 now.minute))),
      isDigitChar c = true ∨ c = '-' ∨ c = '_' := by
  intro c hc
  simp only [List.mem_append, List.mem_cons] at hc
  rcases hc with h | h | h | h | h | h | h | h | h
  all_goals first
    | exact Or.inl (natToChars_digits _ c h)
    | exact Or.inl (pad2_digits _ c h)
    | exact Or.inr (Or.inl h)
    | exact Or.inr (Or.inr h)

/-- `buildConflictPath` always produces `pre ++ " (conflict <inner>).md"`
with `inner` nonempty and free of `)` and backslashes. -/
theorem buildConflictPath_decomp (localPath vaultId : List Char) (now : DateParts) :
    ∃ pre inner : List Char,
      buildConflictPath localPath vaultId now =
        pre ++ ((' ' :: ("(conflict ".toList ++ (inner ++ [')']))) ++ ".md".toList) ∧
      (∀ c ∈ inner, ¬ c = ')') ∧ inner ≠ [] ∧ (∀ c ∈ inner, ¬ c = '\\') := by
  refine ⟨(if conflictDirectory (normalizeLocalPath localPath) = [] then
      stripMdSuffix (conflictFilename (normalizeLocalPath localPath))
    else conflictDirectory (normalizeLocalPath localPath) ++
      '/' :: stripMdSuffix (conflictFilename (normalizeLocalPath localPath))),
    ((if vaultId = [] then "vault".toList else vaultId).map
      fun c => if isSafeVaultIdChar c then c else '-') ++
      ' ' :: (natToChars now.year ++ '-' :: (pad2 (now.monthIndex + 1) ++
        '-' :: (pad2 now.day ++ '_' :: (pad2 now.hour ++ '-' :: pad2 now.minute)))),
    ?_, ?_, ?_, ?_⟩
  · simp only [buildConflictPath]
    rw [show " (conflict ".toList = ' ' :: "(conflict ".toList from rfl,
      show ").md".toList = ')' :: ".md".toList from rfl]
    split
    · simp [List.append_assoc]
    · simp [List.append_assoc]
  · intro c hc
    rcases List.mem_append.mp hc with h | h
    · rcases List.mem_map.mp h with ⟨d, _, hd⟩
      rw [← hd]
      exact (safeVaultIdChar_props d).1
    · rcases List.mem_cons.mp h with h2 | h2
      · rw [h2]; decide
      · rcases timestamp_chars now c h2 with hd | hd | hd
        · exact isDigit_ne_rparen hd
        · rw [hd]; decide
        · rw [hd]; decide
  · simp
  · intro c hc
    rcases List.mem_append.mp hc with h | h
    · rcases List.mem_map.mp h with ⟨d, _, hd⟩
      rw [← hd]
      exact (safeVaultIdChar_props d).2
    · rcases List.mem_cons.mp h with h2 | h2
      · rw [h2]; decide
      · rcases timestamp_chars now c h2 with hd | hd | hd
        · exact isDigit_ne_backslash hd
        · rw [hd]; decide
        · rw [hd]; decide

/-- The path chosen by `createConflictCopy` always matches the conflict-copy
name pattern. -/
theorem isConflictCopyPath_createConflictCopy (v : Vault)
    (localPath content vaultId : List Char) (tags : List (List Char))
    (now : DateParts) (wm : Int) :
    isConflictCopyPath (createConflictCopy v localPath content vaultId
      tags now wm).path = true := by
  obtain ⟨pre, inner, heq, hin, hne, hbs⟩ := buildConflictPath_decomp localPath vaultId now
  have hpath : (createConflictCopy v localPath content vaultId tags now wm).path =
      conflictFreeLoop v (buildConflictPath localPath vaultId now) (v.length + 1)
        (buildConflictPath localPath vaultId now) 1 := rfl
  rcases conflictFreeLoop_shape v (buildConflictPath localPath vaultId now)
      (v.length + 1) (buildConflictPath localPath vaultId now) 1 (Or.inl rfl)
    with hf | ⟨j, hf⟩
  · rw [hpath, hf, heq]
    unfold isConflictCopyPath
    have hbsS : '\\' ∉ (' ' :: ("(conflict ".toList ++ (inner ++ [')']))) ++ ".md".toList := by
      intro hm
      rw [List.mem_append, List.mem_cons] at hm
      rcases hm with (h | h) | h
      · exact absurd h (by decide)
      · rw [List.mem_append] at h
        rcases h with h | h
        · exact absurd h (by decide)
        · rw [List.mem_append] at h
          rcases h with h | h
          · exact hbs '\\' h rfl
          · exact absurd h (by decide)
      · exact absurd h (by decide)
    have hcs : conflictSuffix ((' ' :: ("(conflict ".toList ++ (inner ++ [')']))) ++
        ".md".toList) = true := by
      have hassoc : (' ' :: ("(conflict ".toList ++ (inner ++ [')']))) ++ ".md".toList
          = ' ' :: ("(conflict ".toList ++ (inner ++ ')' :: ".md".toList)) := by
        simp [List.append_assoc]
      rw [hassoc]
      exact conflictSuffix_shape inner ".md".toList hin hne conflictTailPat_md
    exact tails_any_of_suffix conflictSuffix (suffix_nlp_append pre _ hbsS rfl) hcs
  · rw [hpath, hf, heq]
    have hassoc1 : pre ++ ((' ' :: ("(conflict ".toList ++ (inner ++ [')']))) ++ ".md".toList)
        = (pre ++ (' ' :: ("(conflict ".toList ++ (inner ++ [')'])))) ++ ".md".toList := by
      rw [List.append_assoc]
    rw [hassoc1, replaceMdSuffix_append_md]
    have hassoc2 : (pre ++ (' ' :: ("(conflict ".toList ++ (inner ++ [')'])))) ++
        '-' :: (natToChars j ++ ".md".toList)
        = pre ++ (' ' :: ("(conflict ".toList ++ (inner ++ ')' ::
            ('-' :: (natToChars j ++ ".md".toList))))) := by
      simp [List.append_assoc]
    rw [hassoc2]
    unfold isConflictCopyPath
    have hbsS : '\\' ∉ ' ' :: ("(conflict ".toList ++ (inner ++ ')' ::
        ('-' :: (natToChars j ++ ".md".toList)))) := by
      intro hm
      rw [List.mem_cons] at hm
      rcases hm with h | h
      · exact absurd h (by decide)
      · rw [List.mem_append] at h
        rcases h with h | h
        · exact absurd h (by decide)
        · rw [List.mem_append, List.mem_cons] at h
          rcases h with h | h | h
          · exact hbs '\\' h rfl
          · exact absurd h (by decide)
          · rw [List.mem_cons] at h
            rcases h with h | h
            · exact absurd h (by decide)
            · rw [List.mem_append] at h
              rcases h with h | h
              · exact isDigit_ne_backslash (natToChars_digits j _ h) rfl
              · exact absurd h (by decide)
    exact tails_any_of_suffix conflictSuffix (suffix_nlp_append pre _ hbsS rfl)
      (conflictSuffix_shape inner ('-' :: (natToChars j ++ ".md".toList)) hin hne
        (conflictTailPat_dash j))

/-- The conflict-copy path never collides with the (normalized) original
path, because the original is not itself a conflict copy. -/
theorem createConflictCopy_path_ne_nlp (v : Vault)
    (localPath content vaultId : List Char) (tags : List (List Char))
    (now : DateParts) (wm : Int) (hcc : isConflictCopyPath localPath = false) :
    ¬ (createConflictCopy v localPath content vaultId tags now wm).path =
      normalizeLocalPath localPath := by
  intro he
  have h := isConflictCopyPath_createConflictCopy v localPath content vaultId tags now wm
  rw [he, isConflictCopyPath_congr (nlp_idem localPath), hcc] at h
  exact Bool.noConfusion h

/-- C2: when a remote delta reports a tracked markdown path as deleted while
the local file changed since the last recorded sync, `applyRemoteDelete`
keeps the local file untouched at its original path (no local delete), writes
exactly one conflict copy holding the tag-stripped local content, and
re-uploads the local content to the original remote path; no timestamp
comparison is involved, so this holds for every oracle. -/
theorem c2_remote_delete_keeps_local_edit
    (s : EngineSettings) (entry : RemoteDeletedEntry) (o : PullOracle)
    (v : Vault) (st : Store) (localPath : List Char) (localFile : LocalFile)
    (hpath : toLocalPath s.remoteBasePath (entry.pathDisplay.getD entry.pathLower) =
      some localPath)
    (hmd : isMarkdownPath localPath = true)
    (hcc : isConflictCopyPath localPath = false)
    (hfile : getLocalFile v localPath = some localFile)
    (hchanged : ∀ stt, storeGet st localPath = some stt →
      ¬ stt.lastLocalMtime = some localFile.mtime) :
    ∃ cp : List Char,
      isConflictCopyPath cp = true ∧
      ¬ cp = normalizeLocalPath localPath ∧
      (applyRemoteDelete s entry o v st).conflictCopies =
        [(cp, stripSyncTagsFromContent localFile.content s.tagsToSync)] ∧
      vaultFindRaw (applyRemoteDelete s entry o v st).vault cp =
        some ⟨stripSyncTagsFromContent localFile.content s.tagsToSync, o.writeMtime,
          (stripSyncTagsFromContent localFile.content s.tagsToSync).length⟩ ∧
      getLocalFile (applyRemoteDelete s entry o v st).vault localPath = some localFile ∧
      (applyRemoteDelete s entry o v st).localDeletes = [] ∧
      (applyRemoteDelete s entry o v st).uploads =
        [⟨localPath, toRemotePath s.remoteBasePath localPath, localFile.content⟩] ∧
      (applyRemoteDelete s entry o v st).store =
        storeSet st localPath
          ⟨some o.upload.rev, some localFile.mtime, some o.upload.serverModified⟩ := by
  have hred : applyRemoteDelete s entry o v st =
      ⟨(createConflictCopy v localPath localFile.content s.vaultId
          s.tagsToSync o.now o.writeMtime).vault,
       storeSet st localPath
         ⟨some o.upload.rev, some localFile.mtime, some o.upload.serverModified⟩,
       [⟨localPath, toRemotePath s.remoteBasePath localPath, localFile.content⟩],
       [((createConflictCopy v localPath localFile.content s.vaultId
           s.tagsToSync o.now o.writeMtime).path,
         (createConflictCopy v localPath localFile.content s.vaultId
           s.tagsToSync o.now o.writeMtime).content)],
       [], []⟩ := by
    simp only [applyRemoteDelete, hpath, hfile]
    rw [if_neg (fun h => h hmd), if_neg (by rw [hcc]; simp)]
    rcases hst : storeGet st localPath with _ | stt
    · simp only [hst]
      rw [if_neg (by simp)]
    · simp only [hst]
      rw [if_neg (by rw [decide_eq_true (hchanged stt hst)]; simp)]
  refine ⟨(createConflictCopy v localPath localFile.content s.vaultId
      s.tagsToSync o.now o.writeMtime).path,
    isConflictCopyPath_createConflictCopy v localPath localFile.content s.vaultId
      s.tagsToSync o.now o.writeMtime,
    createConflictCopy_path_ne_nlp v localPath localFile.content s.vaultId
      s.tagsToSync o.now o.writeMtime hcc,
    ?_, ?_, ?_, ?_, ?_, ?_⟩
  · rw [hred]
    rfl
  · rw [hred]
    exact vaultFindRaw_set_self v _ _
  · rw [hred]
    have h3 : vaultFindRaw (vaultSetRaw v
        (createConflictCopy v localPath localFile.content s.vaultId
          s.tagsToSync o.now o.writeMtime).path
        ⟨stripSyncTagsFromContent localFile.content s.tagsToSync, o.writeMtime,
         (stripSyncTagsFromContent localFile.content s.tagsToSync).length⟩)
        (normalizeLocalPath localPath) =
        vaultFindRaw v (normalizeLocalPath localPath) :=
      vaultFindRaw_set_other v _ _ _
        (fun h => createConflictCopy_path_ne_nlp v localPath localFile.content s.vaultId
          s.tagsToSync o.now o.writeMtime hcc h.symm)
    exact h3.trans hfile
  · rw [hred]
  · rw [hred]
  · rw [hred]

theorem c2_witness :
    ∃ cp : List Char,
      isConflictCopyPath cp = true ∧
      ¬ cp = normalizeLocalPath ['a', '.', 'm', 'd'] ∧
      (applyRemoteDelete ⟨['/'], [], [], 0⟩ ⟨some ['/', 'a', '.', 'm', 'd'], []⟩
          ⟨⟨⟨[], 0⟩, []⟩, ⟨['r'], 7⟩, 9, ⟨2024, 0, 1, 2, 3⟩⟩
          [(['a', '.', 'm', 'd'], ⟨['x'], 5, 1⟩)] []).conflictCopies =
        [(cp, stripSyncTagsFromContent ['x'] [])] ∧
      vaultFindRaw (applyRemoteDelete ⟨['/'], [], [], 0⟩
          ⟨some ['/', 'a', '.', 'm', 'd'], []⟩
          ⟨⟨⟨[], 0⟩, []⟩, ⟨['r'], 7⟩, 9, ⟨2024, 0, 1, 2, 3⟩⟩
          [(['a', '.', 'm', 'd'], ⟨['x'], 5, 1⟩)] []).vault cp =
        some ⟨stripSyncTagsFromContent ['x'] [], 9,
          (stripSyncTagsFromContent ['x'] []).length⟩ ∧
      getLocalFile (applyRemoteDelete ⟨['/'], [], [], 0⟩
          ⟨some ['/', 'a', '.', 'm', 'd'], []⟩
          ⟨⟨⟨[], 0⟩, []⟩, ⟨['r'], 7⟩, 9, ⟨2024, 0, 1, 2, 3⟩⟩
          [(['a', '.', 'm', 'd'], ⟨['x'], 5, 1⟩)] []).vault ['a', '.', 'm', 'd'] =
        some ⟨['x'], 5, 1⟩ ∧
      (applyRemoteDelete ⟨['/'], [], [], 0⟩ ⟨some ['/', 'a', '.', 'm', 'd'], []⟩
          ⟨⟨⟨[], 0⟩, []⟩, ⟨['r'], 7⟩, 9, ⟨2024, 0, 1, 2, 3⟩⟩
          [(['a', '.', 'm', 'd'], ⟨['x'], 5, 1⟩)] []).localDeletes = [] ∧
      (applyRemoteDelete ⟨['/'], [], [], 0⟩ ⟨some ['/', 'a', '.', 'm', 'd'], []⟩
          ⟨⟨⟨[], 0⟩, []⟩, ⟨['r'], 7⟩, 9, ⟨2024, 0, 1, 2, 3⟩⟩
          [(['a', '.', 'm', 'd'], ⟨['x'], 5, 1⟩)] []).uploads =
        [⟨['a', '.', 'm', 'd'], toRemotePath ['/'] ['a', '.', 'm', 'd'], ['x']⟩] ∧
      (applyRemoteDelete ⟨['/'], [], [], 0⟩ ⟨some ['/', 'a', '.', 'm', 'd'], []⟩
          ⟨⟨⟨[], 0⟩, []⟩, ⟨['r'], 7⟩, 9, ⟨2024, 0, 1, 2, 3⟩⟩
          [(['a', '.', 'm', 'd'], ⟨['x'], 5, 1⟩)] []).store =
        storeSet [] ['a', '.', 'm', 'd'] ⟨some ['r'], some 5, some 7⟩ :=
  c2_remote_delete_keeps_local_edit ⟨['/'], [], [], 0⟩
    ⟨some ['/', 'a', '.', 'm', 'd'], []⟩
    ⟨⟨⟨[], 0⟩, []⟩, ⟨['r'], 7⟩, 9, ⟨2024, 0, 1, 2, 3⟩⟩
    [(['a', '.', 'm', 'd'], ⟨['x'], 5, 1⟩)] [] ['a', '.', 'm', 'd'] ⟨['x'], 5, 1⟩
    (by decide) (by decide) (by decide) (by decide)
    (fun stt h => Option.noConfusion h)

/-- C1 counterexample: in a local-wins edit/edit conflict (remote reported
time 3 older than local mtime 5, contents `R` vs `L` different, revision and
local mtime both changed), the conflict copy holds the WINNING local content
`L`, the losing remote content `R` is written nowhere in the vault, and the
pass uploads the local content; so the losing side's content does not
survive in the conflict copy. -/
theorem c1_counterexample :
    ((applyRemoteFile ⟨['/'], [], [], 0⟩ ⟨['/', 'a', '.', 'm', 'd'], ['r', '2'], 3⟩
        ⟨⟨⟨['r', '2'], 3⟩, ['R']⟩, ⟨['r', '3'], 4⟩, 9, ⟨2024, 0, 1, 2, 3⟩⟩
        [(['a', '.', 'm', 'd'], ⟨['L'], 5, 1⟩)]
        [(['a', '.', 'm', 'd'], ⟨some ['r', '1'], some 4, some 2⟩)]).conflictCopies.map
      Prod.snd = [['L']]) ∧
    (((applyRemoteFile ⟨['/'], [], [], 0⟩ ⟨['/', 'a', '.', 'm', 'd'], ['r', '2'], 3⟩
        ⟨⟨⟨['r', '2'], 3⟩, ['R']⟩, ⟨['r', '3'], 4⟩, 9, ⟨2024, 0, 1, 2, 3⟩⟩
        [(['a', '.', 'm', 'd'], ⟨['L'], 5, 1⟩)]
        [(['a', '.', 'm', 'd'], ⟨some ['r', '1'], some 4, some 2⟩)]).vault.all
      fun e => ¬ e.2.content = ['R']) = true) ∧
    ((applyRemoteFile ⟨['/'], [], [], 0⟩ ⟨['/', 'a', '.', 'm', 'd'], ['r', '2'], 3⟩
        ⟨⟨⟨['r', '2'], 3⟩, ['R']⟩, ⟨['r', '3'], 4⟩, 9, ⟨2024, 0, 1, 2, 3⟩⟩
        [(['a', '.', 'm', 'd'], ⟨['L'], 5, 1⟩)]
        [(['a', '.', 'm', 'd'], ⟨some ['r', '1'], some 4, some 2⟩)]).localWrites = []) ∧
    ((applyRemoteFile ⟨['/'], [], [], 0⟩ ⟨['/', 'a', '.', 'm', 'd'], ['r', '2'], 3⟩
        ⟨⟨⟨['r', '2'], 3⟩, ['R']⟩, ⟨['r', '3'], 4⟩, 9, ⟨2024, 0, 1, 2, 3⟩⟩
        [(['a', '.', 'm', 'd'], ⟨['L'], 5, 1⟩)]
        [(['a', '.', 'm', 'd'], ⟨some ['r', '1'], some 4, some 2⟩)]).uploads.map
      UploadCall.content = [['L']]) := by
  decide

/-- C1 (amended): in an edit/edit conflict on a tracked markdown path
(revision changed, local mtime changed, contents differ), `applyRemoteFile`
creates exactly one conflict copy, which always holds the tag-stripped LOCAL
content; the original path ends the pass with the content of the side whose
reported modification time is later (remote wins ties); the remote content
survives only at the original path when remote wins, and nowhere when local
wins. -/
theorem c1_conflict_copy_characterization
    (s : EngineSettings) (entry : RemoteFileEntry) (o : PullOracle)
    (v : Vault) (st : Store) (localPath : List Char) (localFile : LocalFile)
    (stt : FileSyncState)
    (hpath : toLocalPath s.remoteBasePath entry.pathDisplay = some localPath)
    (hmd : isMarkdownPath localPath = true)
    (hcc : isConflictCopyPath localPath = false)
    (hstore : storeGet st localPath = some stt)
    (hrev : ¬ stt.dropboxRev = some entry.rev)
    (hfile : getLocalFile v localPath = some localFile)
    (hmtime : ¬ stt.lastLocalMtime = some localFile.mtime)
    (hcontent : ¬ o.download.content = localFile.content) :
    ∃ cp : List Char,
      isConflictCopyPath cp = true ∧
      ¬ cp = normalizeLocalPath localPath ∧
      (applyRemoteFile s entry o v st).conflictCopies =
        [(cp, stripSyncTagsFromContent localFile.content s.tagsToSync)] ∧
      vaultFindRaw (applyRemoteFile s entry o v st).vault cp =
        some ⟨stripSyncTagsFromContent localFile.content s.tagsToSync, o.writeMtime,
          (stripSyncTagsFromContent localFile.content s.tagsToSync).length⟩ ∧
      (o.download.meta.serverModified ≥ localFile.mtime →
        getLocalFile (applyRemoteFile s entry o v st).vault localPath =
          some ⟨o.download.content, o.writeMtime, o.download.content.length⟩ ∧
        (applyRemoteFile s entry o v st).uploads = [] ∧
        (applyRemoteFile s entry o v st).localWrites =
          [(normalizeLocalPath localPath, o.download.content)]) ∧
      (¬ o.download.meta.serverModified ≥ localFile.mtime →
        getLocalFile (applyRemoteFile s entry o v st).vault localPath =
          some localFile ∧
        (applyRemoteFile s entry o v st).uploads =
          [⟨localPath, toRemotePath s.remoteBasePath localPath, localFile.content⟩] ∧
        (applyRemoteFile s entry o v st).localWrites = []) := by
  refine ⟨(createConflictCopy v localPath localFile.content s.vaultId
      s.tagsToSync o.now o.writeMtime).path,
    isConflictCopyPath_createConflictCopy v localPath localFile.content s.vaultId
      s.tagsToSync o.now o.writeMtime,
    createConflictCopy_path_ne_nlp v localPath localFile.content s.vaultId
      s.tagsToSync o.now o.writeMtime hcc, ?_⟩
  by_cases hw : o.download.meta.serverModified ≥ localFile.mtime
  · have hred : applyRemoteFile s entry o v st =
        ⟨vaultSetRaw (createConflictCopy v localPath localFile.content s.vaultId
            s.tagsToSync o.now o.writeMtime).vault (normalizeLocalPath localPath)
            ⟨o.download.content, o.writeMtime, o.download.content.length⟩,
         storeSet st localPath ⟨some o.download.meta.rev, some o.writeMtime,
           some o.download.meta.serverModified⟩,
         [],
         [((createConflictCopy v localPath localFile.content s.vaultId
             s.tagsToSync o.now o.writeMtime).path,
           (createConflictCopy v localPath localFile.content s.vaultId
             s.tagsToSync o.now o.writeMtime).content)],
         [], [(normalizeLocalPath localPath, o.download.content)]⟩ := by
      simp only [applyRemoteFile, hpath, hfile, hstore]
      rw [if_neg (fun h => h hmd), if_neg (by rw [hcc]; simp),
        if_neg (by rw [decide_eq_true hrev]; simp),
        if_neg (by rw [decide_eq_true hmtime]; simp),
        if_neg hcontent, if_pos hw]
      rfl
    refine ⟨by rw [hred]; rfl, ?_, ?_, ?_⟩
    · rw [hred]
      have h1 : vaultFindRaw (vaultSetRaw (createConflictCopy v localPath
          localFile.content s.vaultId s.tagsToSync o.now o.writeMtime).vault
          (normalizeLocalPath localPath)
          ⟨o.download.content, o.writeMtime, o.download.content.length⟩)
          (createConflictCopy v localPath localFile.content s.vaultId
            s.tagsToSync o.now o.writeMtime).path =
          vaultFindRaw (createConflictCopy v localPath localFile.content s.vaultId
            s.tagsToSync o.now o.writeMtime).vault
          (createConflictCopy v localPath localFile.content s.vaultId
            s.tagsToSync o.now o.writeMtime).path :=
        vaultFindRaw_set_other _ _ _ _
          (createConflictCopy_path_ne_nlp v localPath localFile.content s.vaultId
            s.tagsToSync o.now o.writeMtime hcc)
      exact h1.trans (vaultFindRaw_set_self v _ _)
    · intro _
      refine ⟨?_, by rw [hred], by rw [hred]⟩
      rw [hred]
      exact vaultFindRaw_set_self _ _ _
    · intro hw2
      exact absurd hw hw2
  · have hred : applyRemoteFile s entry o v st =
        ⟨(createConflictCopy v localPath localFile.content s.vaultId
            s.tagsToSync o.now o.writeMtime).vault,
         storeSet st localPath ⟨some o.upload.rev, some localFile.mtime,
           some o.upload.serverModified⟩,
         [⟨localPath, toRemotePath s.remoteBasePath localPath, localFile.content⟩],
         [((createConflictCopy v localPath localFile.content s.vaultId
             s.tagsToSync o.now o.writeMtime).path,
           (createConflictCopy v localPath localFile.content s.vaultId
             s.tagsToSync o.now o.writeMtime).content)],
         [], []⟩ := by
      simp only [applyRemoteFile, hpath, hfile, hstore]
      rw [if_neg (fun h => h hmd), if_neg (by rw [hcc]; simp),
        if_neg (by rw [decide_eq_true hrev]; simp),
        if_neg (by rw [decide_eq_true hmtime]; simp),
        if_neg hcontent, if_neg hw]
    refine ⟨by rw [hred]; rfl, ?_, ?_, ?_⟩
    · rw [hred]
      exact vaultFindRaw_set_self v _ _
    · intro hw2
      exact absurd hw2 hw
    · intro _
      refine ⟨?_, by rw [hred], by rw [hred]⟩
      rw [hred]
      have h3 : vaultFindRaw (vaultSetRaw v
          (createConflictCopy v localPath localFile.content s.vaultId
            s.tagsToSync o.now o.writeMtime).path
          ⟨stripSyncTagsFromContent localFile.content s.tagsToSync, o.writeMtime,
           (stripSyncTagsFromContent localFile.content s.tagsToSync).length⟩)
          (normalizeLocalPath localPath) =
          vaultFindRaw v (normalizeLocalPath localPath) :=
        vaultFindRaw_set_other v _ _ _
          (fun h => createConflictCopy_path_ne_nlp v localPath localFile.content s.vaultId
            s.tagsToSync o.now o.writeMtime hcc h.symm)
      exact h3.trans hfile

theorem c1_witness :
    ∃ cp : List Char,
      isConflictCopyPath cp = true ∧
      ¬ cp = normalizeLocalPath ['a', '.', 'm', 'd'] ∧
      (applyRemoteFile ⟨['/'], [], [], 0⟩ ⟨['/', 'a', '.', 'm', 'd'], ['r', '2'], 3⟩
          ⟨⟨⟨['r', '2'], 3⟩, ['R']⟩, ⟨['r', '3'], 4⟩, 9, ⟨2024, 0, 1, 2, 3⟩⟩
          [(['a', '.', 'm', 'd'], ⟨['L'], 5, 1⟩)]
          [(['a', '.', 'm', 'd'], ⟨some ['r', '1'], some 4, some 2⟩)]).conflictCopies =
        [(cp, stripSyncTagsFromContent ['L'] [])] ∧
      vaultFindRaw (applyRemoteFile ⟨['/'], [], [], 0⟩
          ⟨['/', 'a', '.', 'm', 'd'], ['r', '2'], 3⟩
          ⟨⟨⟨['r', '2'], 3⟩, ['R']⟩, ⟨['r', '3'], 4⟩, 9, ⟨2024, 0, 1, 2, 3⟩⟩
          [(['a', '.', 'm', 'd'], ⟨['L'], 5, 1⟩)]
          [(['a', '.', 'm', 'd'], ⟨some ['r', '1'], some 4, some 2⟩)]).vault cp =
        some ⟨stripSyncTagsFromContent ['L'] [], 9,
          (stripSyncTagsFromContent ['L'] []).length⟩ ∧
      ((3 : Int) ≥ (5 : Int) →
        getLocalFile (applyRemoteFile ⟨['/'], [], [], 0⟩
            ⟨['/', 'a', '.', 'm', 'd'], ['r', '2'], 3⟩
            ⟨⟨⟨['r', '2'], 3⟩, ['R']⟩, ⟨['r', '3'], 4⟩, 9, ⟨2024, 0, 1, 2, 3⟩⟩
            [(['a', '.', 'm', 'd'], ⟨['L'], 5, 1⟩)]
            [(['a', '.', 'm', 'd'], ⟨some ['r', '1'], some 4, some 2⟩)]).vault
            ['a', '.', 'm', 'd'] = some ⟨['R'], 9, (['R'] : List Char).length⟩ ∧
        (applyRemoteFile ⟨['/'], [], [], 0⟩ ⟨['/', 'a', '.', 'm', 'd'], ['r', '2'], 3⟩
            ⟨⟨⟨['r', '2'], 3⟩, ['R']⟩, ⟨['r', '3'], 4⟩, 9, ⟨2024, 0, 1, 2, 3⟩⟩
            [(['a', '.', 'm', 'd'], ⟨['L'], 5, 1⟩)]
            [(['a', '.', 'm', 'd'], ⟨some ['r', '1'], some 4, some 2⟩)]).uploads = [] ∧
        (applyRemoteFile ⟨['/'], [], [], 0⟩ ⟨['/', 'a', '.', 'm', 'd'], ['r', '2'], 3⟩
            ⟨⟨⟨['r', '2'], 3⟩, ['R']⟩, ⟨['r', '3'], 4⟩, 9, ⟨2024, 0, 1, 2, 3⟩⟩
            [(['a', '.', 'm', 'd'], ⟨['L'], 5, 1⟩)]
            [(['a', '.', 'm', 'd'], ⟨some ['r', '1'], some 4, some 2⟩)]).localWrites =
          [(normalizeLocalPath ['a', '.', 'm', 'd'], ['R'])]) ∧
      (¬ (3 : Int) ≥ (5 : Int) →
        getLocalFile (applyRemoteFile ⟨['/'], [], [], 0⟩
            ⟨['/', 'a', '.', 'm', 'd'], ['r', '2'], 3⟩
            ⟨⟨⟨['r', '2'], 3⟩, ['R']⟩, ⟨['r', '3'], 4⟩, 9, ⟨2024, 0, 1, 2, 3⟩⟩
            [(['a', '.', 'm', 'd'], ⟨['L'], 5, 1⟩)]
            [(['a', '.', 'm', 'd'], ⟨some ['r', '1'], some 4, some 2⟩)]).vault
            ['a', '.', 'm', 'd'] = some ⟨['L'], 5, 1⟩ ∧
        (applyRemoteFile ⟨['/'], [], [], 0⟩ ⟨['/', 'a', '.', 'm', 'd'], ['r', '2'], 3⟩
            ⟨⟨⟨['r', '2'], 3⟩, ['R']⟩, ⟨['r', '3'], 4⟩, 9, ⟨2024, 0, 1, 2, 3⟩⟩
            [(['a', '.', 'm', 'd'], ⟨['L'], 5, 1⟩)]
            [(['a', '.', 'm', 'd'], ⟨some ['r', '1'], some 4, some 2⟩)]).uploads =
          [⟨['a', '.', 'm', 'd'], toRemotePath ['/'] ['a', '.', 'm', 'd'], ['L']⟩] ∧
        (applyRemoteFile ⟨['/'], [], [], 0⟩ ⟨['/', 'a', '.', 'm', 'd'], ['r', '2'], 3⟩
            ⟨⟨⟨['r', '2'], 3⟩, ['R']⟩, ⟨['r', '3'], 4⟩, 9, ⟨2024, 0, 1, 2, 3⟩⟩
            [(['a', '.', 'm', 'd'], ⟨['L'], 5, 1⟩)]
            [(['a', '.', 'm', 'd'], ⟨some ['r', '1'], some 4, some 2⟩)]).localWrites =
          []) :=
  c1_conflict_copy_characterization ⟨['/'], [], [], 0⟩
    ⟨['/', 'a', '.', 'm', 'd'], ['r', '2'], 3⟩
    ⟨⟨⟨['r', '2'], 3⟩, ['R']⟩, ⟨['r', '3'], 4⟩, 9, ⟨2024, 0, 1, 2, 3⟩⟩
    [(['a', '.', 'm', 'd'], ⟨['L'], 5, 1⟩)]
    [(['a', '.', 'm', 'd'], ⟨some ['r', '1'], some 4, some 2⟩)]
    ['a', '.', 'm', 'd'] ⟨['L'], 5, 1⟩ ⟨some ['r', '1'], some 4, some 2⟩
    (by decide) (by decide) (by decide) (by decide) (by decide) (by decide)
    (by decide) (by decide)
